import Mathlib

/-!
# Verification of `CreateCircle` / `CreateCircle2`

Shallow embedding of the two circle-point generators of
`src/CreateCircle/main.cpp` together with proofs of the specified
properties.

The generators fill a caller-provided buffer of `2 n` floating-point
scalars with the vertices of a regular `n`-gon on the unit circle, in
triangle-strip order, by repeatedly rotating a start point with the
recurrence `x' = c x + s y`, `y' = s (-x) + c y` where `c = cos angle`,
`s = sin angle`, `angle = ±2π/n`.

The embedding is generic over a commutative ring of scalars with the
rotation increments `c`, `s` as parameters; real-number wrappers
(`CreateCircleR` etc.) instantiate them with `Real.cos`/`Real.sin` of the
actual angle.  The buffer is a total function `Nat → α`; every array
access of the source is instrumented, recording the scalar index in a
`writes` (resp. `reads`) trace, and the `arrayIndex` write cursor of the
source is the `idx` field.  Machine-integer details that matter are kept:
the even branch of `CreateCircle` iterates `halfN - 1` times where the
subtraction is on `unsigned int` (wrap-around modulo 2^32, see
`uintSub1`), and `CreateCircle2` computes its loop bounds and the
reverse-walk start index in (signed) `int`.
-/

/-- State of a generator call: the pointed-to output buffer, the
`arrayIndex` write cursor, and instrumentation traces of all scalar
indices written / read (in order). -/
structure CCState (α : Type) where
  buf : Nat → α
  idx : Nat
  writes : List Nat
  reads : List Nat

/-- The array store `pointsOut[i] = v`. -/
def wr {α : Type} (st : CCState α) (i : Nat) (v : α) : CCState α :=
  { st with buf := Function.update st.buf i v, writes := st.writes ++ [i] }

/-- `IsOdd` of the source: `number % 2 == 1`. -/
def IsOdd (number : Nat) : Bool := number % 2 == 1

/-- `unsigned int` subtraction of 1 (the `halfNrOfPoints - 1` loop bound
of the even branch of `CreateCircle`): wraps modulo `2^32`. -/
def uintSub1 (a : Nat) : Nat := (a + 4294967295) % 4294967296

/-- One application of the rotation recurrence of the source:
`u = cos(a)·x + sin(a)·y`, `v = sin(a)·(-x) + cos(a)·y`. -/
def rotStep {α : Type} [CommRing α] (c s : α) (p : α × α) : α × α :=
  (c * p.1 + s * p.2, s * -p.1 + c * p.2)

/-- The rotation recurrence applied `m` times. -/
def rotIter {α : Type} [CommRing α] (c s : α) (m : Nat) (p : α × α) : α × α :=
  (rotStep c s)^[m] p

/-- Left-right mirror `(x, y) ↦ (-x, y)` used by the odd branches and by
the second pass of `CreateCircle2`. -/
def mirrorLR {α : Type} [CommRing α] (p : α × α) : α × α := (-p.1, p.2)

/-- Top-bottom mirror `(x, y) ↦ (x, -y)` used by the even branches. -/
def mirrorTB {α : Type} [CommRing α] (p : α × α) : α × α := (p.1, -p.2)

/-- The loop of the odd branch of `CreateCircle`, with the number of
remaining iterations as fuel (`for i in [0, halfN)`): advance the point,
emit it and its left-right mirror, advance the cursor by 4. -/
def oddLoop {α : Type} [CommRing α] (c s : α) : Nat → α × α → CCState α → CCState α
  | 0, _, st => st
  | k + 1, (x, y), st =>
      let xNew := c * x + s * y
      let yNew := s * -x + c * y
      let st4 := wr (wr (wr (wr st st.idx xNew) (st.idx + 1) yNew)
        (st.idx + 2) (-xNew)) (st.idx + 3) yNew
      oddLoop c s k (xNew, yNew) { st4 with idx := st.idx + 4 }

/-- The loop of the even branch of `CreateCircle` (`for i in
[0, halfN - 1)`): advance the point, emit it and its top-bottom mirror. -/
def evenLoop {α : Type} [CommRing α] (c s : α) : Nat → α × α → CCState α → CCState α
  | 0, _, st => st
  | k + 1, (x, y), st =>
      let xNew := c * x + s * y
      let yNew := s * -x + c * y
      let st4 := wr (wr (wr (wr st st.idx xNew) (st.idx + 1) yNew)
        (st.idx + 2) xNew) (st.idx + 3) (-yNew)
      evenLoop c s k (xNew, yNew) { st4 with idx := st.idx + 4 }

/-- The odd-branch loop of `CreateCircle2`.  In the source the counter is
an `int` (`for (int i = 0; i < halfNrOfPoints; ++i)`); the fuel is the
trip count `halfN.toNat`.  Its body is statement-for-statement that of
`oddLoop`. -/
def oddLoop2 {α : Type} [CommRing α] (c s : α) : Nat → α × α → CCState α → CCState α
  | 0, _, st => st
  | k + 1, (x, y), st =>
      let xNew := c * x + s * y
      let yNew := s * -x + c * y
      let st4 := wr (wr (wr (wr st st.idx xNew) (st.idx + 1) yNew)
        (st.idx + 2) (-xNew)) (st.idx + 3) yNew
      oddLoop2 c s k (xNew, yNew) { st4 with idx := st.idx + 4 }

/-- The first (quarter-sweep) loop of the even branch of `CreateCircle2`
(`for (int i = 0; i < halfNrOfPoints / 2; ++i)`), body as in `evenLoop`. -/
def evenLoop2 {α : Type} [CommRing α] (c s : α) : Nat → α × α → CCState α → CCState α
  | 0, _, st => st
  | k + 1, (x, y), st =>
      let xNew := c * x + s * y
      let yNew := s * -x + c * y
      let st4 := wr (wr (wr (wr st st.idx xNew) (st.idx + 1) yNew)
        (st.idx + 2) xNew) (st.idx + 3) (-yNew)
      evenLoop2 c s k (xNew, yNew) { st4 with idx := st.idx + 4 }

/-- The second pass of the even branch of `CreateCircle2`:
`for (auto i = startIndex; i > 0; i -= 2)` reads back the already
written point at vertex `i` (scalars `i*2`, `i*2+1`), emits its
left-right mirror `(-x, y)` and the top-bottom mirror `(-x, -y)` of
that, advancing the cursor by 4. -/
def pass2 {α : Type} [CommRing α] (st : CCState α) (i : Int) : CCState α :=
  if h : 0 < i then
    let x := st.buf (i * 2).toNat
    let y := st.buf (i * 2 + 1).toNat
    let st0 : CCState α := { st with reads := st.reads ++ [(i * 2).toNat, (i * 2 + 1).toNat] }
    let st4 := wr (wr (wr (wr st0 st0.idx (-x)) (st0.idx + 1) y)
      (st0.idx + 2) (-x)) (st0.idx + 3) (-y)
    pass2 { st4 with idx := st0.idx + 4 } (i - 2)
  else st
termination_by i.toNat
decreasing_by omega

/-- `CreateCircle` after the null check, with the rotation increments
`c = cos angle`, `s = sin angle` as parameters and the caller's buffer
`b`.  The `arrayIndex` cursor starts at 2; the odd branch starts at the
top point `(0, 1)` and runs `halfN` iterations; the even branch starts
at the right-most point `(1, 0)`, runs `halfN - 1` iterations
(`unsigned` arithmetic) and finally stores the left-most point
`(-1, 0)` without advancing the cursor. -/
def CreateCircleRun {α : Type} [CommRing α] (n : Nat) (c s : α) (b : Nat → α) : CCState α :=
  let halfN := n / 2
  let st0 : CCState α := ⟨b, 2, [], []⟩
  if IsOdd n then
    oddLoop c s halfN (0, 1) (wr (wr st0 0 0) 1 1)
  else
    let st2 := evenLoop c s (uintSub1 halfN) (1, 0) (wr (wr st0 0 1) 1 0)
    wr (wr st2 st2.idx (-1)) (st2.idx + 1) 0

/-- The first pass of the even branch of `CreateCircle2` (initial point
`(1, 0)` at vertex 0, then `halfN / 2` iterations in `int` arithmetic). -/
def cc2EvenPass1 {α : Type} [CommRing α] (n : Nat) (c s : α) (b : Nat → α) : CCState α :=
  evenLoop2 c s ((((n / 2 : Nat) : Int)) / 2).toNat (1, 0)
    (wr (wr (CCState.mk b 2 [] []) 0 1) 1 0)

/-- `CreateCircle2` after the null check.  The odd branch is as in
`CreateCircleRun` (with `int` loop arithmetic); the even branch runs the
quarter sweep `cc2EvenPass1`, then the reverse read-back walk `pass2`
from `startIndex` (`halfN - 2` if `halfN` is odd, else `halfN - 3`,
in `int`), and finally stores the left-most point `(-1, 0)`. -/
def CreateCircle2Run {α : Type} [CommRing α] (n : Nat) (c s : α) (b : Nat → α) : CCState α :=
  let halfN : Int := (n / 2 : Nat)
  let st0 : CCState α := ⟨b, 2, [], []⟩
  if IsOdd n then
    oddLoop2 c s halfN.toNat (0, 1) (wr (wr st0 0 0) 1 1)
  else
    let st2 := cc2EvenPass1 n c s b
    let startIndex : Int := if halfN % 2 ≠ 0 then halfN - 2 else halfN - 3
    let st3 := pass2 st2 startIndex
    wr (wr st3 st3.idx (-1)) (st3.idx + 1) 0

/-- The angle of the source: `clockwise ? 2π/n : -2π/n` (with
`PI_MUL_2 = 2π`), in exact real arithmetic. -/
noncomputable def angleOf (n : Nat) (clockwise : Bool) : ℝ :=
  (if clockwise then 2 * Real.pi else -(2 * Real.pi)) / (n : ℝ)

/-- `CreateCircle` over the reals with the actual rotation increments
`cos angle`, `sin angle` (non-null buffer `b`). -/
noncomputable def CreateCircleR (n : Nat) (clockwise : Bool) (b : Nat → ℝ) : CCState ℝ :=
  CreateCircleRun n (Real.cos (angleOf n clockwise)) (Real.sin (angleOf n clockwise)) b

/-- `CreateCircle2` over the reals with the actual rotation increments. -/
noncomputable def CreateCircle2R (n : Nat) (clockwise : Bool) (b : Nat → ℝ) : CCState ℝ :=
  CreateCircle2Run n (Real.cos (angleOf n clockwise)) (Real.sin (angleOf n clockwise)) b

/-- The full `CreateCircle` entry point over the reals: a null buffer
pointer (`none`) raises `invalid_argument`; otherwise the body runs on
the pointed-to buffer.  This is the only validity check the source
performs. -/
noncomputable def CreateCircleF (n : Nat) (pointsOut : Option (Nat → ℝ)) (clockwise : Bool) :
    Except Unit (CCState ℝ) :=
  match pointsOut with
  | none => Except.error ()
  | some b => Except.ok (CreateCircleR n clockwise b)

/-- The full `CreateCircle2` entry point over the reals. -/
noncomputable def CreateCircle2F (n : Nat) (pointsOut : Option (Nat → ℝ)) (clockwise : Bool) :
    Except Unit (CCState ℝ) :=
  match pointsOut with
  | none => Except.error ()
  | some b => Except.ok (CreateCircle2R n clockwise b)

/-- The scalar indices written by `k` loop iterations starting at
cursor `base`: `base, base+1, base+2, base+3, base+4, …`. -/
def wIdx (base : Nat) : Nat → List Nat
  | 0 => []
  | k + 1 => [base, base + 1, base + 2, base + 3] ++ wIdx (base + 4) k

/-- The scalar indices read by the second pass of `CreateCircle2` when
it starts at vertex `2*m - 1`: vertex `2j-1` contributes scalars
`4j - 2`, `4j - 1`, for `j = m, m-1, …, 1`. -/
def rIdx : Nat → List Nat
  | 0 => []
  | m + 1 => [4 * (m + 1) - 2, 4 * (m + 1) - 1] ++ rIdx m

/-- The multiset of the first `n` (x, y) vertex pairs held in the
buffer: vertex `k` occupies scalars `2k`, `2k+1`. -/
def ptsM {α : Type} (st : CCState α) (n : Nat) : Multiset (α × α) :=
  (Multiset.range n).map fun k => (st.buf (2 * k), st.buf (2 * k + 1))

/-- One loop iteration's effect on the state: store the four scalars
`v0 v1 v2 v3` at the cursor and advance it by 4.  Every loop body above
is definitionally `step4` of its four emitted values. -/
def step4 {α : Type} (v0 v1 v2 v3 : α) (st : CCState α) : CCState α :=
  { buf := Function.update (Function.update (Function.update (Function.update st.buf
      st.idx v0) (st.idx + 1) v1) (st.idx + 2) v2) (st.idx + 3) v3,
    idx := st.idx + 4,
    writes := st.writes ++ [st.idx, st.idx + 1, st.idx + 2, st.idx + 3],
    reads := st.reads }

/-- Append scalar indices to the read trace. -/
def addReads {α : Type} (st : CCState α) (l : List Nat) : CCState α :=
  { st with reads := st.reads ++ l }

/-- The state after the two initial stores `pointsOut[0] = x0`,
`pointsOut[1] = y0` (cursor at 2, nothing read yet). -/
def initSt {α : Type} (b : Nat → α) (x0 y0 : α) : CCState α :=
  ⟨Function.update (Function.update b 0 x0) 1 y0, 2, [0, 1], []⟩

/-! ## Field lemmas for `step4` and `addReads` -/

theorem step4_idx {α : Type} (v0 v1 v2 v3 : α) (st : CCState α) :
    (step4 v0 v1 v2 v3 st).idx = st.idx + 4 := rfl

theorem step4_writes {α : Type} (v0 v1 v2 v3 : α) (st : CCState α) :
    (step4 v0 v1 v2 v3 st).writes
      = st.writes ++ [st.idx, st.idx + 1, st.idx + 2, st.idx + 3] := rfl

theorem step4_reads {α : Type} (v0 v1 v2 v3 : α) (st : CCState α) :
    (step4 v0 v1 v2 v3 st).reads = st.reads := rfl

theorem step4_buf_lo {α : Type} (v0 v1 v2 v3 : α) (st : CCState α) (j : Nat)
    (hj : j < st.idx) : (step4 v0 v1 v2 v3 st).buf j = st.buf j := by
  show Function.update _ _ _ _ = _
  rw [Function.update_noteq (by omega), Function.update_noteq (by omega),
    Function.update_noteq (by omega), Function.update_noteq (by omega)]

theorem step4_buf_at0 {α : Type} (v0 v1 v2 v3 : α) (st : CCState α) :
    (step4 v0 v1 v2 v3 st).buf st.idx = v0 := by
  show Function.update _ _ _ _ = _
  rw [Function.update_noteq (by omega), Function.update_noteq (by omega),
    Function.update_noteq (by omega), Function.update_same]

theorem step4_buf_at1 {α : Type} (v0 v1 v2 v3 : α) (st : CCState α) :
    (step4 v0 v1 v2 v3 st).buf (st.idx + 1) = v1 := by
  show Function.update _ _ _ _ = _
  rw [Function.update_noteq (by omega), Function.update_noteq (by omega),
    Function.update_same]

theorem step4_buf_at2 {α : Type} (v0 v1 v2 v3 : α) (st : CCState α) :
    (step4 v0 v1 v2 v3 st).buf (st.idx + 2) = v2 := by
  show Function.update _ _ _ _ = _
  rw [Function.update_noteq (by omega), Function.update_same]

theorem step4_buf_at3 {α : Type} (v0 v1 v2 v3 : α) (st : CCState α) :
    (step4 v0 v1 v2 v3 st).buf (st.idx + 3) = v3 := by
  show Function.update _ _ _ _ = _
  rw [Function.update_same]

theorem addReads_buf {α : Type} (st : CCState α) (l : List Nat) :
    (addReads st l).buf = st.buf := rfl

theorem addReads_idx {α : Type} (st : CCState α) (l : List Nat) :
    (addReads st l).idx = st.idx := rfl

theorem addReads_writes {α : Type} (st : CCState α) (l : List Nat) :
    (addReads st l).writes = st.writes := rfl

theorem addReads_reads {α : Type} (st : CCState α) (l : List Nat) :
    (addReads st l).reads = st.reads ++ l := rfl

/-! ## Unfolding the loops through `step4` -/

theorem oddLoop_zero {α : Type} [CommRing α] (c s : α) (p : α × α) (st : CCState α) :
    oddLoop c s 0 p st = st := rfl

theorem oddLoop_succ {α : Type} [CommRing α] (c s : α) (k : Nat) (x y : α) (st : CCState α) :
    oddLoop c s (k + 1) (x, y) st
      = oddLoop c s k (c * x + s * y, s * -x + c * y)
          (step4 (c * x + s * y) (s * -x + c * y) (-(c * x + s * y)) (s * -x + c * y) st) := by
  simp [oddLoop, wr, step4]

theorem evenLoop_zero {α : Type} [CommRing α] (c s : α) (p : α × α) (st : CCState α) :
    evenLoop c s 0 p st = st := rfl

theorem evenLoop_succ {α : Type} [CommRing α] (c s : α) (k : Nat) (x y : α) (st : CCState α) :
    evenLoop c s (k + 1) (x, y) st
      = evenLoop c s k (c * x + s * y, s * -x + c * y)
          (step4 (c * x + s * y) (s * -x + c * y) (c * x + s * y) (-(s * -x + c * y)) st) := by
  simp [evenLoop, wr, step4]

theorem oddLoop2_eq {α : Type} [CommRing α] (c s : α) (k : Nat) (p : α × α) (st : CCState α) :
    oddLoop2 c s k p st = oddLoop c s k p st := by
  induction k generalizing p st with
  | zero => rfl
  | succ k ih =>
    obtain ⟨x, y⟩ := p
    simp only [oddLoop2, oddLoop]
    exact ih _ _

theorem evenLoop2_eq {α : Type} [CommRing α] (c s : α) (k : Nat) (p : α × α) (st : CCState α) :
    evenLoop2 c s k p st = evenLoop c s k p st := by
  induction k generalizing p st with
  | zero => rfl
  | succ k ih =>
    obtain ⟨x, y⟩ := p
    simp only [evenLoop2, evenLoop]
    exact ih _ _

theorem pass2_nonpos {α : Type} [CommRing α] (st : CCState α) (i : Int) (h : ¬ 0 < i) :
    pass2 st i = st := by
  rw [pass2]
  simp [h]

theorem pass2_pos {α : Type} [CommRing α] (st : CCState α) (i : Int) (h : 0 < i) :
    pass2 st i
      = pass2 (step4 (-(st.buf (i * 2).toNat)) (st.buf (i * 2 + 1).toNat)
          (-(st.buf (i * 2).toNat)) (-(st.buf (i * 2 + 1).toNat))
          (addReads st [(i * 2).toNat, (i * 2 + 1).toNat])) (i - 2) := by
  rw [pass2]
  simp only [h, dite_true, dif_pos]
  congr 1
  simp [wr, step4, addReads]

/-! ## Instrumentation-list lemmas -/

theorem wIdx_length (base k : Nat) : (wIdx base k).length = 4 * k := by
  induction k generalizing base with
  | zero => rfl
  | succ k ih => simp [wIdx, ih]; omega

theorem wIdx_mem (base k j : Nat) : j ∈ wIdx base k ↔ base ≤ j ∧ j < base + 4 * k := by
  induction k generalizing base with
  | zero => simp [wIdx]
  | succ k ih => simp [wIdx, ih]; omega

theorem rIdx_mem (m r : Nat) :
    r ∈ rIdx m ↔ ∃ j, 1 ≤ j ∧ j ≤ m ∧ (r = 4 * j - 2 ∨ r = 4 * j - 1) := by
  induction m with
  | zero => simp [rIdx]; omega
  | succ m ih =>
    simp only [rIdx, List.mem_append, List.mem_cons, List.not_mem_nil, or_false, ih]
    constructor
    · rintro ((h | h) | ⟨j, h1, h2, h3⟩)
      · exact ⟨m + 1, by omega, by omega, Or.inl h⟩
      · exact ⟨m + 1, by omega, by omega, Or.inr h⟩
      · exact ⟨j, h1, by omega, h3⟩
    · rintro ⟨j, h1, h2, h3⟩
      by_cases hj : j = m + 1
      · subst hj
        rcases h3 with h | h
        · exact Or.inl (Or.inl h)
        · exact Or.inl (Or.inr h)
      · exact Or.inr ⟨j, h1, by omega, h3⟩

/-! ## The rotation recurrence -/

theorem rotIter_shift {α : Type} [CommRing α] (c s : α) (m : Nat) (p : α × α) :
    rotIter c s m (rotStep c s p) = rotIter c s (m + 1) p :=
  (Function.iterate_succ_apply (rotStep c s) m p).symm

theorem rotIter_shiftXY {α : Type} [CommRing α] (c s x y : α) (m : Nat) :
    rotIter c s m (c * x + s * y, s * -x + c * y) = rotIter c s (m + 1) (x, y) :=
  rotIter_shift c s m (x, y)

theorem rotIter_one {α : Type} [CommRing α] (c s : α) (p : α × α) :
    rotIter c s 1 p = rotStep c s p := by
  simp [rotIter]

/-! ## Characterization of `oddLoop` -/

theorem oddLoop_idx {α : Type} [CommRing α] (c s : α) (k : Nat) (p : α × α) (st : CCState α) :
    (oddLoop c s k p st).idx = st.idx + 4 * k := by
  induction k generalizing p st with
  | zero => rw [oddLoop_zero]; omega
  | succ k ih =>
    obtain ⟨x, y⟩ := p
    rw [oddLoop_succ, ih, step4_idx]
    omega

theorem oddLoop_writes {α : Type} [CommRing α] (c s : α) (k : Nat) (p : α × α)
    (st : CCState α) : (oddLoop c s k p st).writes = st.writes ++ wIdx st.idx k := by
  induction k generalizing p st with
  | zero => rw [oddLoop_zero]; simp [wIdx]
  | succ k ih =>
    obtain ⟨x, y⟩ := p
    rw [oddLoop_succ, ih, step4_writes, step4_idx]
    simp [wIdx]

theorem oddLoop_reads {α : Type} [CommRing α] (c s : α) (k : Nat) (p : α × α)
    (st : CCState α) : (oddLoop c s k p st).reads = st.reads := by
  induction k generalizing p st with
  | zero => rw [oddLoop_zero]
  | succ k ih =>
    obtain ⟨x, y⟩ := p
    rw [oddLoop_succ, ih, step4_reads]

theorem oddLoop_buf_lo {α : Type} [CommRing α] (c s : α) (k : Nat) (p : α × α)
    (st : CCState α) (j : Nat) (hj : j < st.idx) :
    (oddLoop c s k p st).buf j = st.buf j := by
  induction k generalizing p st with
  | zero => rw [oddLoop_zero]
  | succ k ih =>
    obtain ⟨x, y⟩ := p
    rw [oddLoop_succ, ih _ _ (by rw [step4_idx]; omega),
      step4_buf_lo _ _ _ _ _ _ hj]

theorem oddLoop_buf_pay {α : Type} [CommRing α] (c s : α) (k : Nat) (p : α × α)
    (st : CCState α) (i : Nat) (hi : i < k) :
    (oddLoop c s k p st).buf (st.idx + 4 * i) = (rotIter c s (i + 1) p).1 ∧
    (oddLoop c s k p st).buf (st.idx + 4 * i + 1) = (rotIter c s (i + 1) p).2 ∧
    (oddLoop c s k p st).buf (st.idx + 4 * i + 2) = -(rotIter c s (i + 1) p).1 ∧
    (oddLoop c s k p st).buf (st.idx + 4 * i + 3) = (rotIter c s (i + 1) p).2 := by
  induction k generalizing p st i with
  | zero => omega
  | succ k ih =>
    obtain ⟨x, y⟩ := p
    rw [oddLoop_succ]
    rcases Nat.eq_zero_or_pos i with hi0 | hipos
    · subst hi0
      rw [rotIter_one]
      simp only [Nat.mul_zero, Nat.add_zero]
      have hlo : ∀ r : Nat, r < 4 →
          (oddLoop c s k (c * x + s * y, s * -x + c * y)
            (step4 (c * x + s * y) (s * -x + c * y) (-(c * x + s * y)) (s * -x + c * y)
              st)).buf (st.idx + r)
          = (step4 (c * x + s * y) (s * -x + c * y) (-(c * x + s * y)) (s * -x + c * y)
              st).buf (st.idx + r) := by
        intro r hr
        exact oddLoop_buf_lo c s k _ _ _ (by rw [step4_idx]; omega)
      have h0 := hlo 0 (by omega)
      rw [Nat.add_zero] at h0
      refine ⟨?_, ?_, ?_, ?_⟩
      · rw [h0, step4_buf_at0, rotStep]
      · rw [hlo 1 (by omega), step4_buf_at1, rotStep]
      · rw [hlo 2 (by omega), step4_buf_at2, rotStep]
      · rw [hlo 3 (by omega), step4_buf_at3, rotStep]
    · obtain ⟨i', rfl⟩ : ∃ i', i = i' + 1 := ⟨i - 1, by omega⟩
      have H := ih (c * x + s * y, s * -x + c * y)
        (step4 (c * x + s * y) (s * -x + c * y) (-(c * x + s * y)) (s * -x + c * y) st)
        i' (by omega)
      rw [step4_idx, rotIter_shiftXY] at H
      have e0 : st.idx + 4 * (i' + 1) = st.idx + 4 + 4 * i' := by omega
      rw [e0]
      exact H

/-! ## Characterization of `evenLoop` -/

theorem evenLoop_idx {α : Type} [CommRing α] (c s : α) (k : Nat) (p : α × α) (st : CCState α) :
    (evenLoop c s k p st).idx = st.idx + 4 * k := by
  induction k generalizing p st with
  | zero => rw [evenLoop_zero]; omega
  | succ k ih =>
    obtain ⟨x, y⟩ := p
    rw [evenLoop_succ, ih, step4_idx]
    omega

theorem evenLoop_writes {α : Type} [CommRing α] (c s : α) (k : Nat) (p : α × α)
    (st : CCState α) : (evenLoop c s k p st).writes = st.writes ++ wIdx st.idx k := by
  induction k generalizing p st with
  | zero => rw [evenLoop_zero]; simp [wIdx]
  | succ k ih =>
    obtain ⟨x, y⟩ := p
    rw [evenLoop_succ, ih, step4_writes, step4_idx]
    simp [wIdx]

theorem evenLoop_reads {α : Type} [CommRing α] (c s : α) (k : Nat) (p : α × α)
    (st : CCState α) : (evenLoop c s k p st).reads = st.reads := by
  induction k generalizing p st with
  | zero => rw [evenLoop_zero]
  | succ k ih =>
    obtain ⟨x, y⟩ := p
    rw [evenLoop_succ, ih, step4_reads]

theorem evenLoop_buf_lo {α : Type} [CommRing α] (c s : α) (k : Nat) (p : α × α)
    (st : CCState α) (j : Nat) (hj : j < st.idx) :
    (evenLoop c s k p st).buf j = st.buf j := by
  induction k generalizing p st with
  | zero => rw [evenLoop_zero]
  | succ k ih =>
    obtain ⟨x, y⟩ := p
    rw [evenLoop_succ, ih _ _ (by rw [step4_idx]; omega),
      step4_buf_lo _ _ _ _ _ _ hj]

theorem evenLoop_buf_pay {α : Type} [CommRing α] (c s : α) (k : Nat) (p : α × α)
    (st : CCState α) (i : Nat) (hi : i < k) :
    (evenLoop c s k p st).buf (st.idx + 4 * i) = (rotIter c s (i + 1) p).1 ∧
    (evenLoop c s k p st).buf (st.idx + 4 * i + 1) = (rotIter c s (i + 1) p).2 ∧
    (evenLoop c s k p st).buf (st.idx + 4 * i + 2) = (rotIter c s (i + 1) p).1 ∧
    (evenLoop c s k p st).buf (st.idx + 4 * i + 3) = -(rotIter c s (i + 1) p).2 := by
  induction k generalizing p st i with
  | zero => omega
  | succ k ih =>
    obtain ⟨x, y⟩ := p
    rw [evenLoop_succ]
    rcases Nat.eq_zero_or_pos i with hi0 | hipos
    · subst hi0
      rw [rotIter_one]
      simp only [Nat.mul_zero, Nat.add_zero]
      have hlo : ∀ r : Nat, r < 4 →
          (evenLoop c s k (c * x + s * y, s * -x + c * y)
            (step4 (c * x + s * y) (s * -x + c * y) (c * x + s * y) (-(s * -x + c * y))
              st)).buf (st.idx + r)
          = (step4 (c * x + s * y) (s * -x + c * y) (c * x + s * y) (-(s * -x + c * y))
              st).buf (st.idx + r) := by
        intro r hr
        exact evenLoop_buf_lo c s k _ _ _ (by rw [step4_idx]; omega)
      have h0 := hlo 0 (by omega)
      rw [Nat.add_zero] at h0
      refine ⟨?_, ?_, ?_, ?_⟩
      · rw [h0, step4_buf_at0, rotStep]
      · rw [hlo 1 (by omega), step4_buf_at1, rotStep]
      · rw [hlo 2 (by omega), step4_buf_at2, rotStep]
      · rw [hlo 3 (by omega), step4_buf_at3, rotStep]
    · obtain ⟨i', rfl⟩ : ∃ i', i = i' + 1 := ⟨i - 1, by omega⟩
      have H := ih (c * x + s * y, s * -x + c * y)
        (step4 (c * x + s * y) (s * -x + c * y) (c * x + s * y) (-(s * -x + c * y)) st)
        i' (by omega)
      rw [step4_idx, rotIter_shiftXY] at H
      have e0 : st.idx + 4 * (i' + 1) = st.idx + 4 + 4 * i' := by omega
      rw [e0]
      exact H

/-! ## Characterization of `pass2` (started at vertex `2m - 1`) -/

theorem pass2_idx {α : Type} [CommRing α] (m : Nat) (st : CCState α) :
    (pass2 st (2 * (m : Int) - 1)).idx = st.idx + 4 * m := by
  induction m generalizing st with
  | zero => rw [pass2_nonpos _ _ (by omega)]; omega
  | succ m ih =>
    rw [pass2_pos _ _ (by push_cast; omega)]
    have harg : (2 * ((m + 1 : Nat) : Int) - 1) - 2 = 2 * (m : Int) - 1 := by
      push_cast; ring
    rw [harg, ih, step4_idx, addReads_idx]
    omega

theorem pass2_writes {α : Type} [CommRing α] (m : Nat) (st : CCState α) :
    (pass2 st (2 * (m : Int) - 1)).writes = st.writes ++ wIdx st.idx m := by
  induction m generalizing st with
  | zero => rw [pass2_nonpos _ _ (by omega)]; simp [wIdx]
  | succ m ih =>
    rw [pass2_pos _ _ (by push_cast; omega)]
    have harg : (2 * ((m + 1 : Nat) : Int) - 1) - 2 = 2 * (m : Int) - 1 := by
      push_cast; ring
    rw [harg, ih, step4_writes, step4_idx, addReads_idx, addReads_writes]
    simp [wIdx]

theorem pass2_reads {α : Type} [CommRing α] (m : Nat) (st : CCState α) :
    (pass2 st (2 * (m : Int) - 1)).reads = st.reads ++ rIdx m := by
  induction m generalizing st with
  | zero => rw [pass2_nonpos _ _ (by omega)]; simp [rIdx]
  | succ m ih =>
    rw [pass2_pos _ _ (by push_cast; omega)]
    have harg : (2 * ((m + 1 : Nat) : Int) - 1) - 2 = 2 * (m : Int) - 1 := by
      push_cast; ring
    have er0 : ((2 * ((m + 1 : Nat) : Int) - 1) * 2).toNat = 4 * (m + 1) - 2 := by
      push_cast; omega
    have er1 : ((2 * ((m + 1 : Nat) : Int) - 1) * 2 + 1).toNat = 4 * (m + 1) - 1 := by
      push_cast; omega
    rw [harg, ih, step4_reads, addReads_reads, er0, er1]
    simp [rIdx]

theorem pass2_buf_lo {α : Type} [CommRing α] (m : Nat) (st : CCState α) (j : Nat)
    (hj : j < st.idx) : (pass2 st (2 * (m : Int) - 1)).buf j = st.buf j := by
  induction m generalizing st with
  | zero => rw [pass2_nonpos _ _ (by omega)]
  | succ m ih =>
    rw [pass2_pos _ _ (by push_cast; omega)]
    have harg : (2 * ((m + 1 : Nat) : Int) - 1) - 2 = 2 * (m : Int) - 1 := by
      push_cast; ring
    rw [harg, ih _ (by rw [step4_idx, addReads_idx]; omega),
      step4_buf_lo _ _ _ _ _ _ (by rw [addReads_idx]; omega), addReads_buf]

theorem pass2_buf_pay {α : Type} [CommRing α] (m : Nat) (st : CCState α)
    (h4 : 4 * m ≤ st.idx) (k : Nat) (hk : k < m) :
    (pass2 st (2 * (m : Int) - 1)).buf (st.idx + 4 * k)
        = -(st.buf (4 * (m - k) - 2)) ∧
    (pass2 st (2 * (m : Int) - 1)).buf (st.idx + 4 * k + 1)
        = st.buf (4 * (m - k) - 1) ∧
    (pass2 st (2 * (m : Int) - 1)).buf (st.idx + 4 * k + 2)
        = -(st.buf (4 * (m - k) - 2)) ∧
    (pass2 st (2 * (m : Int) - 1)).buf (st.idx + 4 * k + 3)
        = -(st.buf (4 * (m - k) - 1)) := by
  induction m generalizing st k with
  | zero => omega
  | succ m ih =>
    rw [pass2_pos _ _ (by push_cast; omega)]
    have harg : (2 * ((m + 1 : Nat) : Int) - 1) - 2 = 2 * (m : Int) - 1 := by
      push_cast; ring
    have er0 : ((2 * ((m + 1 : Nat) : Int) - 1) * 2).toNat = 4 * (m + 1) - 2 := by
      push_cast; omega
    have er1 : ((2 * ((m + 1 : Nat) : Int) - 1) * 2 + 1).toNat = 4 * (m + 1) - 1 := by
      push_cast; omega
    rw [harg, er0, er1]
    rcases Nat.eq_zero_or_pos k with hk0 | hkpos
    · subst hk0
      simp only [Nat.mul_zero, Nat.add_zero, Nat.sub_zero]
      have ha0 := step4_buf_at0 (-(st.buf (4 * (m + 1) - 2))) (st.buf (4 * (m + 1) - 1))
        (-(st.buf (4 * (m + 1) - 2))) (-(st.buf (4 * (m + 1) - 1)))
        (addReads st [4 * (m + 1) - 2, 4 * (m + 1) - 1])
      have ha1 := step4_buf_at1 (-(st.buf (4 * (m + 1) - 2))) (st.buf (4 * (m + 1) - 1))
        (-(st.buf (4 * (m + 1) - 2))) (-(st.buf (4 * (m + 1) - 1)))
        (addReads st [4 * (m + 1) - 2, 4 * (m + 1) - 1])
      have ha2 := step4_buf_at2 (-(st.buf (4 * (m + 1) - 2))) (st.buf (4 * (m + 1) - 1))
        (-(st.buf (4 * (m + 1) - 2))) (-(st.buf (4 * (m + 1) - 1)))
        (addReads st [4 * (m + 1) - 2, 4 * (m + 1) - 1])
      have ha3 := step4_buf_at3 (-(st.buf (4 * (m + 1) - 2))) (st.buf (4 * (m + 1) - 1))
        (-(st.buf (4 * (m + 1) - 2))) (-(st.buf (4 * (m + 1) - 1)))
        (addReads st [4 * (m + 1) - 2, 4 * (m + 1) - 1])
      rw [addReads_idx] at ha0 ha1 ha2 ha3
      refine ⟨?_, ?_, ?_, ?_⟩
      · exact (pass2_buf_lo m _ st.idx (by rw [step4_idx, addReads_idx]; omega)).trans ha0
      · exact (pass2_buf_lo m _ (st.idx + 1)
          (by rw [step4_idx, addReads_idx]; omega)).trans ha1
      · exact (pass2_buf_lo m _ (st.idx + 2)
          (by rw [step4_idx, addReads_idx]; omega)).trans ha2
      · exact (pass2_buf_lo m _ (st.idx + 3)
          (by rw [step4_idx, addReads_idx]; omega)).trans ha3
    · obtain ⟨k', rfl⟩ : ∃ k', k = k' + 1 := ⟨k - 1, by omega⟩
      have H := ih (step4 (-(st.buf (4 * (m + 1) - 2))) (st.buf (4 * (m + 1) - 1))
          (-(st.buf (4 * (m + 1) - 2))) (-(st.buf (4 * (m + 1) - 1)))
          (addReads st [4 * (m + 1) - 2, 4 * (m + 1) - 1]))
        (by rw [step4_idx, addReads_idx]; omega) k' (by omega)
      rw [step4_idx, addReads_idx] at H
      have hbuf : ∀ q : Nat, q < st.idx →
          (step4 (-(st.buf (4 * (m + 1) - 2))) (st.buf (4 * (m + 1) - 1))
            (-(st.buf (4 * (m + 1) - 2))) (-(st.buf (4 * (m + 1) - 1)))
            (addReads st [4 * (m + 1) - 2, 4 * (m + 1) - 1])).buf q = st.buf q := by
        intro q hq
        rw [step4_buf_lo _ _ _ _ _ _ (by rw [addReads_idx]; omega), addReads_buf]
      rw [hbuf (4 * (m - k') - 2) (by omega), hbuf (4 * (m - k') - 1) (by omega)] at H
      have e0 : st.idx + 4 * (k' + 1) = st.idx + 4 + 4 * k' := by omega
      have em : 4 * (m + 1 - (k' + 1)) - 2 = 4 * (m - k') - 2 := by omega
      have em1 : 4 * (m + 1 - (k' + 1)) - 1 = 4 * (m - k') - 1 := by omega
      rw [e0, em, em1]
      exact H

/-! ## `initSt` and branch-unfolding lemmas -/

theorem initSt_idx {α : Type} (b : Nat → α) (x0 y0 : α) : (initSt b x0 y0).idx = 2 := rfl

theorem initSt_writes {α : Type} (b : Nat → α) (x0 y0 : α) :
    (initSt b x0 y0).writes = [0, 1] := rfl

theorem initSt_reads {α : Type} (b : Nat → α) (x0 y0 : α) : (initSt b x0 y0).reads = [] := rfl

theorem initSt_buf0 {α : Type} (b : Nat → α) (x0 y0 : α) : (initSt b x0 y0).buf 0 = x0 := by
  show Function.update (Function.update b 0 x0) 1 y0 0 = x0
  rw [Function.update_noteq (by omega), Function.update_same]

theorem initSt_buf1 {α : Type} (b : Nat → α) (x0 y0 : α) : (initSt b x0 y0).buf 1 = y0 := by
  show Function.update (Function.update b 0 x0) 1 y0 1 = y0
  rw [Function.update_same]

theorem wr_wr_initSt {α : Type} (b : Nat → α) (x0 y0 : α) :
    wr (wr (⟨b, 2, [], []⟩ : CCState α) 0 x0) 1 y0 = initSt b x0 y0 := by
  simp [wr, initSt]

theorem IsOdd_true {n : Nat} (h : n % 2 = 1) : IsOdd n = true := by
  simp [IsOdd, h]

theorem IsOdd_false {n : Nat} (h : n % 2 = 0) : IsOdd n = false := by
  simp [IsOdd, h]

theorem CreateCircleRun_odd {α : Type} [CommRing α] (n : Nat) (c s : α) (b : Nat → α)
    (h : n % 2 = 1) :
    CreateCircleRun n c s b = oddLoop c s (n / 2) (0, 1) (initSt b 0 1) := by
  rw [CreateCircleRun]
  simp only [IsOdd_true h, if_true, wr_wr_initSt]

theorem CreateCircleRun_even {α : Type} [CommRing α] (n : Nat) (c s : α) (b : Nat → α)
    (h : n % 2 = 0) :
    CreateCircleRun n c s b
      = wr (wr (evenLoop c s (uintSub1 (n / 2)) (1, 0) (initSt b 1 0))
          (evenLoop c s (uintSub1 (n / 2)) (1, 0) (initSt b 1 0)).idx (-1))
          ((evenLoop c s (uintSub1 (n / 2)) (1, 0) (initSt b 1 0)).idx + 1) 0 := by
  rw [CreateCircleRun]
  simp only [IsOdd_false h, Bool.false_eq_true, if_false, wr_wr_initSt]

theorem CreateCircle2Run_odd {α : Type} [CommRing α] (n : Nat) (c s : α) (b : Nat → α)
    (h : n % 2 = 1) :
    CreateCircle2Run n c s b = oddLoop c s (n / 2) (0, 1) (initSt b 0 1) := by
  rw [CreateCircle2Run]
  simp only [IsOdd_true h, if_true, wr_wr_initSt, oddLoop2_eq, Int.toNat_natCast]

theorem cc2EvenPass1_eq {α : Type} [CommRing α] (n : Nat) (c s : α) (b : Nat → α) :
    cc2EvenPass1 n c s b = evenLoop c s ((n / 2) / 2) (1, 0) (initSt b 1 0) := by
  rw [cc2EvenPass1]
  have e : ((((n / 2 : Nat) : Int)) / 2).toNat = (n / 2) / 2 := by omega
  rw [e, evenLoop2_eq, wr_wr_initSt]

/-- For even `n ≥ 2` the reverse-walk start index is `2 * m0 - 1` (as an
integer) where `m0 = (n/2 - 1) / 2`. -/
theorem startIndex_eq (n : Nat) (h : n % 2 = 0) (h2 : 2 ≤ n) :
    (if ((n / 2 : Nat) : Int) % 2 ≠ 0 then ((n / 2 : Nat) : Int) - 2
      else ((n / 2 : Nat) : Int) - 3)
    = 2 * (((n / 2 - 1) / 2 : Nat) : Int) - 1 := by
  rcases Nat.even_or_odd (n / 2) with he | ho
  · obtain ⟨t, ht⟩ := he
    have h1 : ((n / 2 : Nat) : Int) % 2 = 0 := by omega
    rw [if_neg (by omega)]
    omega
  · obtain ⟨t, ht⟩ := ho
    have h1 : ((n / 2 : Nat) : Int) % 2 ≠ 0 := by omega
    rw [if_pos h1]
    omega

theorem CreateCircle2Run_even {α : Type} [CommRing α] (n : Nat) (c s : α) (b : Nat → α)
    (h : n % 2 = 0) (h2 : 2 ≤ n) :
    CreateCircle2Run n c s b
      = wr (wr (pass2 (cc2EvenPass1 n c s b) (2 * (((n / 2 - 1) / 2 : Nat) : Int) - 1))
          (pass2 (cc2EvenPass1 n c s b) (2 * (((n / 2 - 1) / 2 : Nat) : Int) - 1)).idx (-1))
          ((pass2 (cc2EvenPass1 n c s b) (2 * (((n / 2 - 1) / 2 : Nat) : Int) - 1)).idx + 1)
          0 := by
  rw [CreateCircle2Run]
  simp only [IsOdd_false h, Bool.false_eq_true, if_false]
  rw [startIndex_eq n h h2]

/-! ## Field lemmas for a single store -/

theorem wr_idx {α : Type} (st : CCState α) (i : Nat) (v : α) : (wr st i v).idx = st.idx := rfl

theorem wr_writes {α : Type} (st : CCState α) (i : Nat) (v : α) :
    (wr st i v).writes = st.writes ++ [i] := rfl

theorem wr_reads {α : Type} (st : CCState α) (i : Nat) (v : α) :
    (wr st i v).reads = st.reads := rfl

theorem wr_buf_eq {α : Type} (st : CCState α) (i : Nat) (v : α) : (wr st i v).buf i = v := by
  show Function.update st.buf i v i = v
  rw [Function.update_same]

theorem wr_buf_ne {α : Type} (st : CCState α) (i : Nat) (v : α) (j : Nat) (h : j ≠ i) :
    (wr st i v).buf j = st.buf j := by
  show Function.update st.buf i v j = st.buf j
  rw [Function.update_noteq h]

/-! ## Characterization of the odd branch (`CreateCircle`, odd `n`) -/

theorem CCodd_buf0 {α : Type} [CommRing α] (n : Nat) (c s : α) (b : Nat → α)
    (h : n % 2 = 1) :
    (CreateCircleRun n c s b).buf 0 = 0 ∧ (CreateCircleRun n c s b).buf 1 = 1 := by
  rw [CreateCircleRun_odd n c s b h]
  constructor
  · rw [oddLoop_buf_lo c s _ _ _ 0 (by rw [initSt_idx]; omega), initSt_buf0]
  · rw [oddLoop_buf_lo c s _ _ _ 1 (by rw [initSt_idx]; omega), initSt_buf1]

theorem CCodd_pay {α : Type} [CommRing α] (n : Nat) (c s : α) (b : Nat → α)
    (h : n % 2 = 1) (i : Nat) (hi : i < n / 2) :
    (CreateCircleRun n c s b).buf (2 + 4 * i) = (rotIter c s (i + 1) (0, 1)).1 ∧
    (CreateCircleRun n c s b).buf (2 + 4 * i + 1) = (rotIter c s (i + 1) (0, 1)).2 ∧
    (CreateCircleRun n c s b).buf (2 + 4 * i + 2) = -(rotIter c s (i + 1) (0, 1)).1 ∧
    (CreateCircleRun n c s b).buf (2 + 4 * i + 3) = (rotIter c s (i + 1) (0, 1)).2 := by
  rw [CreateCircleRun_odd n c s b h]
  have H := oddLoop_buf_pay c s (n / 2) (0, 1) (initSt b 0 1) i hi
  rw [initSt_idx] at H
  exact H

theorem CCodd_idx {α : Type} [CommRing α] (n : Nat) (c s : α) (b : Nat → α)
    (h : n % 2 = 1) : (CreateCircleRun n c s b).idx = 2 * n := by
  rw [CreateCircleRun_odd n c s b h, oddLoop_idx, initSt_idx]
  omega

theorem CCodd_writes {α : Type} [CommRing α] (n : Nat) (c s : α) (b : Nat → α)
    (h : n % 2 = 1) :
    (CreateCircleRun n c s b).writes = [0, 1] ++ wIdx 2 (n / 2) := by
  rw [CreateCircleRun_odd n c s b h, oddLoop_writes, initSt_writes, initSt_idx]

theorem CCodd_reads {α : Type} [CommRing α] (n : Nat) (c s : α) (b : Nat → α)
    (h : n % 2 = 1) : (CreateCircleRun n c s b).reads = [] := by
  rw [CreateCircleRun_odd n c s b h, oddLoop_reads, initSt_reads]

/-- For odd `n` the two variants compute the very same state. -/
theorem CC2odd_eq_CC {α : Type} [CommRing α] (n : Nat) (c s : α) (b : Nat → α)
    (h : n % 2 = 1) : CreateCircle2Run n c s b = CreateCircleRun n c s b := by
  rw [CreateCircleRun_odd n c s b h, CreateCircle2Run_odd n c s b h]

/-! ## Characterization of the even branch of `CreateCircle` -/

theorem uintSub1_eq {a : Nat} (ha : 1 ≤ a) (hb : a ≤ 4294967296) : uintSub1 a = a - 1 := by
  rw [uintSub1]
  omega

theorem CCeven_buf0 {α : Type} [CommRing α] (n : Nat) (c s : α) (b : Nat → α)
    (h : n % 2 = 0) (h2 : 2 ≤ n) (hlt : n < 4294967296) :
    (CreateCircleRun n c s b).buf 0 = 1 ∧ (CreateCircleRun n c s b).buf 1 = 0 := by
  rw [CreateCircleRun_even n c s b h, uintSub1_eq (by omega) (by omega)]
  have hidx : (evenLoop c s (n / 2 - 1) ((1 : α), (0 : α)) (initSt b 1 0)).idx = 2 * n - 2 := by
    rw [evenLoop_idx, initSt_idx]; omega
  constructor
  · rw [wr_buf_ne _ _ _ _ (by omega), wr_buf_ne _ _ _ _ (by rw [hidx]; omega),
      evenLoop_buf_lo c s _ _ _ 0 (by rw [initSt_idx]; omega), initSt_buf0]
  · rw [wr_buf_ne _ _ _ _ (by omega), wr_buf_ne _ _ _ _ (by rw [hidx]; omega),
      evenLoop_buf_lo c s _ _ _ 1 (by rw [initSt_idx]; omega), initSt_buf1]

theorem CCeven_pay {α : Type} [CommRing α] (n : Nat) (c s : α) (b : Nat → α)
    (h : n % 2 = 0) (h2 : 2 ≤ n) (hlt : n < 4294967296) (i : Nat) (hi : i < n / 2 - 1) :
    (CreateCircleRun n c s b).buf (2 + 4 * i) = (rotIter c s (i + 1) (1, 0)).1 ∧
    (CreateCircleRun n c s b).buf (2 + 4 * i + 1) = (rotIter c s (i + 1) (1, 0)).2 ∧
    (CreateCircleRun n c s b).buf (2 + 4 * i + 2) = (rotIter c s (i + 1) (1, 0)).1 ∧
    (CreateCircleRun n c s b).buf (2 + 4 * i + 3) = -(rotIter c s (i + 1) (1, 0)).2 := by
  rw [CreateCircleRun_even n c s b h, uintSub1_eq (by omega) (by omega)]
  have hidx : (evenLoop c s (n / 2 - 1) ((1 : α), (0 : α)) (initSt b 1 0)).idx = 2 * n - 2 := by
    rw [evenLoop_idx, initSt_idx]; omega
  have H := evenLoop_buf_pay c s (n / 2 - 1) (1, 0) (initSt b 1 0) i hi
  rw [initSt_idx] at H
  refine ⟨?_, ?_, ?_, ?_⟩
  · rw [wr_buf_ne _ _ _ _ (by rw [hidx]; omega), wr_buf_ne _ _ _ _ (by rw [hidx]; omega)]
    exact H.1
  · rw [wr_buf_ne _ _ _ _ (by rw [hidx]; omega), wr_buf_ne _ _ _ _ (by rw [hidx]; omega)]
    exact H.2.1
  · rw [wr_buf_ne _ _ _ _ (by rw [hidx]; omega), wr_buf_ne _ _ _ _ (by rw [hidx]; omega)]
    exact H.2.2.1
  · rw [wr_buf_ne _ _ _ _ (by rw [hidx]; omega), wr_buf_ne _ _ _ _ (by rw [hidx]; omega)]
    exact H.2.2.2

theorem CCeven_last {α : Type} [CommRing α] (n : Nat) (c s : α) (b : Nat → α)
    (h : n % 2 = 0) (h2 : 2 ≤ n) (hlt : n < 4294967296) :
    (CreateCircleRun n c s b).buf (2 * n - 2) = -1 ∧
    (CreateCircleRun n c s b).buf (2 * n - 1) = 0 := by
  rw [CreateCircleRun_even n c s b h, uintSub1_eq (by omega) (by omega)]
  have hidx : (evenLoop c s (n / 2 - 1) ((1 : α), (0 : α)) (initSt b 1 0)).idx = 2 * n - 2 := by
    rw [evenLoop_idx, initSt_idx]; omega
  constructor
  · rw [wr_buf_ne _ _ _ _ (by rw [hidx]; omega)]
    rw [show 2 * n - 2 = (evenLoop c s (n / 2 - 1) ((1 : α), (0 : α)) (initSt b 1 0)).idx
      from hidx.symm]
    exact wr_buf_eq _ _ _
  · rw [show 2 * n - 1 = (evenLoop c s (n / 2 - 1) ((1 : α), (0 : α)) (initSt b 1 0)).idx + 1
      from by rw [hidx]; omega]
    exact wr_buf_eq _ _ _

theorem CCeven_idx {α : Type} [CommRing α] (n : Nat) (c s : α) (b : Nat → α)
    (h : n % 2 = 0) (h2 : 2 ≤ n) (hlt : n < 4294967296) :
    (CreateCircleRun n c s b).idx = 2 * n - 2 := by
  rw [CreateCircleRun_even n c s b h, uintSub1_eq (by omega) (by omega), wr_idx, wr_idx,
    evenLoop_idx, initSt_idx]
  omega

theorem CCeven_writes {α : Type} [CommRing α] (n : Nat) (c s : α) (b : Nat → α)
    (h : n % 2 = 0) (h2 : 2 ≤ n) (hlt : n < 4294967296) :
    (CreateCircleRun n c s b).writes
      = ([0, 1] ++ wIdx 2 (n / 2 - 1)) ++ [2 * n - 2, 2 * n - 1] := by
  rw [CreateCircleRun_even n c s b h, uintSub1_eq (by omega) (by omega)]
  have hidx : (evenLoop c s (n / 2 - 1) ((1 : α), (0 : α)) (initSt b 1 0)).idx = 2 * n - 2 := by
    rw [evenLoop_idx, initSt_idx]; omega
  rw [wr_writes, wr_writes, evenLoop_writes, initSt_writes, initSt_idx, hidx]
  simp
  omega

theorem CCeven_reads {α : Type} [CommRing α] (n : Nat) (c s : α) (b : Nat → α)
    (h : n % 2 = 0) (h2 : 2 ≤ n) (hlt : n < 4294967296) :
    (CreateCircleRun n c s b).reads = [] := by
  rw [CreateCircleRun_even n c s b h, wr_reads, wr_reads, evenLoop_reads, initSt_reads]

/-! ## Characterization of the even branch of `CreateCircle2` -/

theorem pass1_idx {α : Type} [CommRing α] (n : Nat) (c s : α) (b : Nat → α) :
    (cc2EvenPass1 n c s b).idx = 2 + 4 * ((n / 2) / 2) := by
  rw [cc2EvenPass1_eq, evenLoop_idx, initSt_idx]

theorem pass1_writes {α : Type} [CommRing α] (n : Nat) (c s : α) (b : Nat → α) :
    (cc2EvenPass1 n c s b).writes = [0, 1] ++ wIdx 2 ((n / 2) / 2) := by
  rw [cc2EvenPass1_eq, evenLoop_writes, initSt_writes, initSt_idx]

theorem pass1_reads {α : Type} [CommRing α] (n : Nat) (c s : α) (b : Nat → α) :
    (cc2EvenPass1 n c s b).reads = [] := by
  rw [cc2EvenPass1_eq, evenLoop_reads, initSt_reads]

theorem pass1_buf0 {α : Type} [CommRing α] (n : Nat) (c s : α) (b : Nat → α) :
    (cc2EvenPass1 n c s b).buf 0 = 1 ∧ (cc2EvenPass1 n c s b).buf 1 = 0 := by
  rw [cc2EvenPass1_eq]
  constructor
  · rw [evenLoop_buf_lo c s _ _ _ 0 (by rw [initSt_idx]; omega), initSt_buf0]
  · rw [evenLoop_buf_lo c s _ _ _ 1 (by rw [initSt_idx]; omega), initSt_buf1]

theorem pass1_pay {α : Type} [CommRing α] (n : Nat) (c s : α) (b : Nat → α)
    (i : Nat) (hi : i < (n / 2) / 2) :
    (cc2EvenPass1 n c s b).buf (2 + 4 * i) = (rotIter c s (i + 1) (1, 0)).1 ∧
    (cc2EvenPass1 n c s b).buf (2 + 4 * i + 1) = (rotIter c s (i + 1) (1, 0)).2 ∧
    (cc2EvenPass1 n c s b).buf (2 + 4 * i + 2) = (rotIter c s (i + 1) (1, 0)).1 ∧
    (cc2EvenPass1 n c s b).buf (2 + 4 * i + 3) = -(rotIter c s (i + 1) (1, 0)).2 := by
  rw [cc2EvenPass1_eq]
  have H := evenLoop_buf_pay c s ((n / 2) / 2) (1, 0) (initSt b 1 0) i hi
  rw [initSt_idx] at H
  exact H

theorem CC2even_idx {α : Type} [CommRing α] (n : Nat) (c s : α) (b : Nat → α)
    (h : n % 2 = 0) (h2 : 2 ≤ n) :
    (CreateCircle2Run n c s b).idx = 2 * n - 2 := by
  rw [CreateCircle2Run_even n c s b h h2, wr_idx, wr_idx, pass2_idx, pass1_idx]
  omega

theorem CC2even_buf0 {α : Type} [CommRing α] (n : Nat) (c s : α) (b : Nat → α)
    (h : n % 2 = 0) (h2 : 2 ≤ n) :
    (CreateCircle2Run n c s b).buf 0 = 1 ∧ (CreateCircle2Run n c s b).buf 1 = 0 := by
  rw [CreateCircle2Run_even n c s b h h2]
  have hA : (pass2 (cc2EvenPass1 n c s b) (2 * (((n / 2 - 1) / 2 : Nat) : Int) - 1)).idx
      = 2 * n - 2 := by
    rw [pass2_idx, pass1_idx]; omega
  constructor
  · rw [wr_buf_ne _ _ _ _ (by rw [hA]; omega), wr_buf_ne _ _ _ _ (by rw [hA]; omega),
      pass2_buf_lo _ _ _ (by rw [pass1_idx]; omega)]
    exact (pass1_buf0 n c s b).1
  · rw [wr_buf_ne _ _ _ _ (by rw [hA]; omega), wr_buf_ne _ _ _ _ (by rw [hA]; omega),
      pass2_buf_lo _ _ _ (by rw [pass1_idx]; omega)]
    exact (pass1_buf0 n c s b).2

theorem CC2even_pay1 {α : Type} [CommRing α] (n : Nat) (c s : α) (b : Nat → α)
    (h : n % 2 = 0) (h2 : 2 ≤ n) (i : Nat) (hi : i < (n / 2) / 2) :
    (CreateCircle2Run n c s b).buf (2 + 4 * i) = (rotIter c s (i + 1) (1, 0)).1 ∧
    (CreateCircle2Run n c s b).buf (2 + 4 * i + 1) = (rotIter c s (i + 1) (1, 0)).2 ∧
    (CreateCircle2Run n c s b).buf (2 + 4 * i + 2) = (rotIter c s (i + 1) (1, 0)).1 ∧
    (CreateCircle2Run n c s b).buf (2 + 4 * i + 3) = -(rotIter c s (i + 1) (1, 0)).2 := by
  rw [CreateCircle2Run_even n c s b h h2]
  have hA : (pass2 (cc2EvenPass1 n c s b) (2 * (((n / 2 - 1) / 2 : Nat) : Int) - 1)).idx
      = 2 * n - 2 := by
    rw [pass2_idx, pass1_idx]; omega
  have hm0 : (n / 2 - 1) / 2 ≤ (n / 2) / 2 := by omega
  have H := pass1_pay n c s b i hi
  refine ⟨?_, ?_, ?_, ?_⟩
  · rw [wr_buf_ne _ _ _ _ (by rw [hA]; omega), wr_buf_ne _ _ _ _ (by rw [hA]; omega),
      pass2_buf_lo _ _ _ (by rw [pass1_idx]; omega)]
    exact H.1
  · rw [wr_buf_ne _ _ _ _ (by rw [hA]; omega), wr_buf_ne _ _ _ _ (by rw [hA]; omega),
      pass2_buf_lo _ _ _ (by rw [pass1_idx]; omega)]
    exact H.2.1
  · rw [wr_buf_ne _ _ _ _ (by rw [hA]; omega), wr_buf_ne _ _ _ _ (by rw [hA]; omega),
      pass2_buf_lo _ _ _ (by rw [pass1_idx]; omega)]
    exact H.2.2.1
  · rw [wr_buf_ne _ _ _ _ (by rw [hA]; omega), wr_buf_ne _ _ _ _ (by rw [hA]; omega),
      pass2_buf_lo _ _ _ (by rw [pass1_idx]; omega)]
    exact H.2.2.2

theorem CC2even_pay2 {α : Type} [CommRing α] (n : Nat) (c s : α) (b : Nat → α)
    (h : n % 2 = 0) (h2 : 2 ≤ n) (k : Nat) (hk : k < (n / 2 - 1) / 2) :
    (CreateCircle2Run n c s b).buf (2 + 4 * ((n / 2) / 2) + 4 * k)
        = -(rotIter c s ((n / 2 - 1) / 2 - k) (1, 0)).1 ∧
    (CreateCircle2Run n c s b).buf (2 + 4 * ((n / 2) / 2) + 4 * k + 1)
        = (rotIter c s ((n / 2 - 1) / 2 - k) (1, 0)).2 ∧
    (CreateCircle2Run n c s b).buf (2 + 4 * ((n / 2) / 2) + 4 * k + 2)
        = -(rotIter c s ((n / 2 - 1) / 2 - k) (1, 0)).1 ∧
    (CreateCircle2Run n c s b).buf (2 + 4 * ((n / 2) / 2) + 4 * k + 3)
        = -(rotIter c s ((n / 2 - 1) / 2 - k) (1, 0)).2 := by
  rw [CreateCircle2Run_even n c s b h h2]
  have hA : (pass2 (cc2EvenPass1 n c s b) (2 * (((n / 2 - 1) / 2 : Nat) : Int) - 1)).idx
      = 2 * n - 2 := by
    rw [pass2_idx, pass1_idx]; omega
  have h4 : 4 * ((n / 2 - 1) / 2) ≤ (cc2EvenPass1 n c s b).idx := by
    rw [pass1_idx]; omega
  have H := pass2_buf_pay ((n / 2 - 1) / 2) (cc2EvenPass1 n c s b) h4 k hk
  rw [pass1_idx] at H
  -- identify the read-back values with first-pass payload points
  have hi' : (n / 2 - 1) / 2 - k - 1 < (n / 2) / 2 := by omega
  have Hp := pass1_pay n c s b ((n / 2 - 1) / 2 - k - 1) hi'
  have e1 : 4 * ((n / 2 - 1) / 2 - k) - 2 = 2 + 4 * ((n / 2 - 1) / 2 - k - 1) := by omega
  have e2 : 4 * ((n / 2 - 1) / 2 - k) - 1 = 2 + 4 * ((n / 2 - 1) / 2 - k - 1) + 1 := by omega
  have e3 : (n / 2 - 1) / 2 - k - 1 + 1 = (n / 2 - 1) / 2 - k := by omega
  rw [e1, e2, Hp.1, Hp.2.1, e3] at H
  refine ⟨?_, ?_, ?_, ?_⟩
  · rw [wr_buf_ne _ _ _ _ (by rw [hA]; omega), wr_buf_ne _ _ _ _ (by rw [hA]; omega)]
    exact H.1
  · rw [wr_buf_ne _ _ _ _ (by rw [hA]; omega), wr_buf_ne _ _ _ _ (by rw [hA]; omega)]
    exact H.2.1
  · rw [wr_buf_ne _ _ _ _ (by rw [hA]; omega), wr_buf_ne _ _ _ _ (by rw [hA]; omega)]
    exact H.2.2.1
  · rw [wr_buf_ne _ _ _ _ (by rw [hA]; omega), wr_buf_ne _ _ _ _ (by rw [hA]; omega)]
    exact H.2.2.2

theorem CC2even_last {α : Type} [CommRing α] (n : Nat) (c s : α) (b : Nat → α)
    (h : n % 2 = 0) (h2 : 2 ≤ n) :
    (CreateCircle2Run n c s b).buf (2 * n - 2) = -1 ∧
    (CreateCircle2Run n c s b).buf (2 * n - 1) = 0 := by
  rw [CreateCircle2Run_even n c s b h h2]
  have hA : (pass2 (cc2EvenPass1 n c s b) (2 * (((n / 2 - 1) / 2 : Nat) : Int) - 1)).idx
      = 2 * n - 2 := by
    rw [pass2_idx, pass1_idx]; omega
  constructor
  · rw [wr_buf_ne _ _ _ _ (by rw [hA]; omega)]
    rw [show 2 * n - 2
        = (pass2 (cc2EvenPass1 n c s b) (2 * (((n / 2 - 1) / 2 : Nat) : Int) - 1)).idx
      from hA.symm]
    exact wr_buf_eq _ _ _
  · rw [show 2 * n - 1
        = (pass2 (cc2EvenPass1 n c s b) (2 * (((n / 2 - 1) / 2 : Nat) : Int) - 1)).idx + 1
      from by rw [hA]; omega]
    exact wr_buf_eq _ _ _

theorem CC2even_writes {α : Type} [CommRing α] (n : Nat) (c s : α) (b : Nat → α)
    (h : n % 2 = 0) (h2 : 2 ≤ n) :
    (CreateCircle2Run n c s b).writes
      = (([0, 1] ++ wIdx 2 ((n / 2) / 2)) ++ wIdx (2 + 4 * ((n / 2) / 2)) ((n / 2 - 1) / 2))
        ++ [2 * n - 2, 2 * n - 1] := by
  rw [CreateCircle2Run_even n c s b h h2]
  have hA : (pass2 (cc2EvenPass1 n c s b) (2 * (((n / 2 - 1) / 2 : Nat) : Int) - 1)).idx
      = 2 * n - 2 := by
    rw [pass2_idx, pass1_idx]; omega
  rw [wr_writes, wr_writes, hA, pass2_writes, pass1_writes, pass1_idx]
  simp
  omega

theorem CC2even_reads {α : Type} [CommRing α] (n : Nat) (c s : α) (b : Nat → α)
    (h : n % 2 = 0) (h2 : 2 ≤ n) :
    (CreateCircle2Run n c s b).reads = rIdx ((n / 2 - 1) / 2) := by
  rw [CreateCircle2Run_even n c s b h h2, wr_reads, wr_reads, pass2_reads, pass1_reads]
  simp

/-! ## Claim theorems: cursor/trace safety -/

/-- C1: for every point count `n ≥ 1` (an `unsigned int`, so `n < 2^32`)
and a non-null buffer, both generator variants write exactly `2n`
scalars; for odd `n` the cursor after the loop equals `2n`, for even `n`
the cursor at the final left-most store equals `2n - 2` (so the
`assert`ed post-conditions `arrayIndex == 2n` resp.
`arrayIndex + 2 == 2n` hold), and every write index lies in `[0, 2n)`. -/
theorem c1_writes_exactly_2n (α : Type) [CommRing α] (n : Nat) (c s : α) (b : Nat → α)
    (h1 : 1 ≤ n) (hlt : n < 4294967296) :
    ((CreateCircleRun n c s b).writes.length = 2 * n ∧
     (CreateCircle2Run n c s b).writes.length = 2 * n) ∧
    (n % 2 = 1 →
      (CreateCircleRun n c s b).idx = 2 * n ∧ (CreateCircle2Run n c s b).idx = 2 * n) ∧
    (n % 2 = 0 →
      (CreateCircleRun n c s b).idx = 2 * n - 2 ∧
      (CreateCircle2Run n c s b).idx = 2 * n - 2) ∧
    (∀ j ∈ (CreateCircleRun n c s b).writes, j < 2 * n) ∧
    (∀ j ∈ (CreateCircle2Run n c s b).writes, j < 2 * n) := by
  rcases Nat.even_or_odd n with he | ho
  · have h : n % 2 = 0 := Nat.even_iff.mp he
    have h2 : 2 ≤ n := by omega
    have hw := CCeven_writes n c s b h h2 hlt
    have hw2 := CC2even_writes n c s b h h2
    refine ⟨⟨?_, ?_⟩, ?_, ?_, ?_, ?_⟩
    · rw [hw]; simp [wIdx_length]; omega
    · rw [hw2]; simp [wIdx_length]; omega
    · intro hcon; omega
    · intro _; exact ⟨CCeven_idx n c s b h h2 hlt, CC2even_idx n c s b h h2⟩
    · intro j hj
      rw [hw] at hj
      simp [wIdx_mem] at hj
      omega
    · intro j hj
      rw [hw2] at hj
      simp [wIdx_mem] at hj
      omega
  · have h : n % 2 = 1 := Nat.odd_iff.mp ho
    have hw := CCodd_writes n c s b h
    have he2 := CC2odd_eq_CC n c s b h
    refine ⟨⟨?_, ?_⟩, ?_, ?_, ?_, ?_⟩
    · rw [hw]; simp [wIdx_length]; omega
    · rw [he2, hw]; simp [wIdx_length]; omega
    · intro _; exact ⟨CCodd_idx n c s b h, by rw [he2]; exact CCodd_idx n c s b h⟩
    · intro hcon; omega
    · intro j hj
      rw [hw] at hj
      simp [wIdx_mem] at hj
      omega
    · intro j hj
      rw [he2, hw] at hj
      simp [wIdx_mem] at hj
      omega

/-- Witness for C1 at the concrete inputs `n = 5` and `n = 6` over `ℤ`. -/
theorem c1_witness :
    ((1 ≤ 5 ∧ 5 < 4294967296) ∧
      (CreateCircleRun 5 (0 : ℤ) 1 (fun _ => 0)).writes.length = 2 * 5) ∧
    ((1 ≤ 6 ∧ 6 < 4294967296) ∧
      (CreateCircle2Run 6 (0 : ℤ) 1 (fun _ => 0)).idx = 2 * 6 - 2) :=
  ⟨⟨⟨by norm_num, by norm_num⟩,
    (c1_writes_exactly_2n ℤ 5 0 1 (fun _ => 0) (by norm_num) (by norm_num)).1.1⟩,
   ⟨⟨by norm_num, by norm_num⟩,
    ((c1_writes_exactly_2n ℤ 6 0 1 (fun _ => 0) (by norm_num) (by norm_num)).2.2.1
      (by norm_num)).2⟩⟩

/-- C8: for the degenerate counts `n = 1` and `n = 2` (non-null buffer)
both variants access only indices inside `[0, 2n)`: for `n = 1` exactly
the scalars 0 and 1 are written, for `n = 2` exactly 0,1,2,3, and the
read-back loop of `CreateCircle2` performs no read at all. -/
theorem c8_degenerate_no_oob (α : Type) [CommRing α] (c s : α) (b : Nat → α) :
    ((CreateCircleRun 1 c s b).writes = [0, 1] ∧
     (CreateCircle2Run 1 c s b).writes = [0, 1] ∧
     (CreateCircleRun 1 c s b).reads = [] ∧
     (CreateCircle2Run 1 c s b).reads = [] ∧
     (∀ j ∈ (CreateCircleRun 1 c s b).writes, j < 2) ∧
     (∀ j ∈ (CreateCircle2Run 1 c s b).writes, j < 2)) ∧
    ((CreateCircleRun 2 c s b).writes = [0, 1, 2, 3] ∧
     (CreateCircle2Run 2 c s b).writes = [0, 1, 2, 3] ∧
     (CreateCircleRun 2 c s b).reads = [] ∧
     (CreateCircle2Run 2 c s b).reads = [] ∧
     (∀ j ∈ (CreateCircleRun 2 c s b).writes, j < 4) ∧
     (∀ j ∈ (CreateCircle2Run 2 c s b).writes, j < 4)) := by
  have w11 : (CreateCircleRun 1 c s b).writes = [0, 1] := rfl
  have w12 : (CreateCircle2Run 1 c s b).writes = [0, 1] := rfl
  have w21 : (CreateCircleRun 2 c s b).writes = [0, 1, 2, 3] := rfl
  have w22 : (CreateCircle2Run 2 c s b).writes = [0, 1, 2, 3] := by
    rw [CC2even_writes 2 c s b (by norm_num) (by norm_num)]
    norm_num [wIdx]
  have r22 : (CreateCircle2Run 2 c s b).reads = [] := by
    rw [CC2even_reads 2 c s b (by norm_num) (by norm_num)]
    norm_num [rIdx]
  refine ⟨⟨w11, w12, rfl, rfl, ?_, ?_⟩, ⟨w21, w22, rfl, r22, ?_, ?_⟩⟩
  · intro j hj; rw [w11] at hj; simp at hj; omega
  · intro j hj; rw [w12] at hj; simp at hj; omega
  · intro j hj; rw [w21] at hj; simp at hj; omega
  · intro j hj; rw [w22] at hj; simp at hj; omega

/-- Witness for C8: the index 2 written by `CreateCircle2` at `n = 2`
over `ℤ` is inside `[0, 4)`. -/
theorem c8_witness : (2 : Nat) < 4 :=
  ((c8_degenerate_no_oob ℤ 0 1 (fun _ => 0)).2.2.2.2.2.1 2 (by decide))

/-- C9: for even `n ≥ 2` every scalar index `r` read by the second pass
of `CreateCircle2` belongs to an odd vertex `i` with
`1 ≤ i ≤ 2⌊halfN/2⌋` (`r ∈ {2i, 2i+1}`), is one of the indices the
first pass has already written, lies below the first-pass frontier
`2 + 4⌊halfN/2⌋`, and is strictly below every index written after the
first pass — the read-back never touches an uninitialized slot. -/
theorem c9_pass2_reads_initialized (α : Type) [CommRing α] (n : Nat) (c s : α) (b : Nat → α)
    (he : n % 2 = 0) (h2 : 2 ≤ n) :
    ∀ r ∈ (CreateCircle2Run n c s b).reads,
      (∃ i, i % 2 = 1 ∧ 1 ≤ i ∧ i ≤ 2 * ((n / 2) / 2) ∧ (r = 2 * i ∨ r = 2 * i + 1)) ∧
      r ∈ (cc2EvenPass1 n c s b).writes ∧
      r < 2 + 4 * ((n / 2) / 2) ∧
      ∀ w ∈ (CreateCircle2Run n c s b).writes,
        w ∉ (cc2EvenPass1 n c s b).writes → r < w := by
  intro r hr
  rw [CC2even_reads n c s b he h2, rIdx_mem] at hr
  obtain ⟨j, hj1, hj2, hj3⟩ := hr
  have hm0 : (n / 2 - 1) / 2 ≤ (n / 2) / 2 := by omega
  have hrlt : r < 2 + 4 * ((n / 2) / 2) := by omega
  refine ⟨⟨2 * j - 1, by omega, by omega, by omega, by omega⟩, ?_, hrlt, ?_⟩
  · rw [pass1_writes]
    simp [wIdx_mem]
    omega
  · intro w hw hwn
    rw [CC2even_writes n c s b he h2] at hw
    rw [pass1_writes] at hwn
    simp [wIdx_mem] at hw hwn
    omega

/-- Witness for C9 at `n = 6` over `ℤ`: the read index 2 is vertex 1's
x-scalar, written by the first pass. -/
theorem c9_witness :
    (∃ i, i % 2 = 1 ∧ 1 ≤ i ∧ i ≤ 2 * ((6 / 2) / 2) ∧ ((2 : Nat) = 2 * i ∨ 2 = 2 * i + 1)) ∧
    (2 : Nat) ∈ (cc2EvenPass1 6 (0 : ℤ) 1 (fun _ => 0)).writes ∧
    (2 : Nat) < 2 + 4 * ((6 / 2) / 2) ∧
    ∀ w ∈ (CreateCircle2Run 6 (0 : ℤ) 1 (fun _ => 0)).writes,
      w ∉ (cc2EvenPass1 6 (0 : ℤ) 1 (fun _ => 0)).writes → 2 < w :=
  c9_pass2_reads_initialized ℤ 6 0 1 (fun _ => 0) (by norm_num) (by norm_num) 2
    (by rw [CC2even_reads 6 0 1 (fun _ => 0) (by norm_num) (by norm_num)]
        norm_num [rIdx])

/-- C10: for odd `n` the two variants perform the same computation:
the final buffers agree everywhere and the write traces coincide. -/
theorem c10_odd_variants_identical (α : Type) [CommRing α] (n : Nat) (c s : α)
    (b : Nat → α) (hodd : n % 2 = 1) :
    (∀ j, (CreateCircle2Run n c s b).buf j = (CreateCircleRun n c s b).buf j) ∧
    (CreateCircle2Run n c s b).writes = (CreateCircleRun n c s b).writes := by
  rw [CC2odd_eq_CC n c s b hodd]
  exact ⟨fun _ => rfl, rfl⟩

/-- Witness for C10 at `n = 3` over `ℤ`, scalar index 2. -/
theorem c10_witness :
    (3 % 2 = 1) ∧
    (CreateCircle2Run 3 (0 : ℤ) 1 (fun _ => 0)).buf 2
      = (CreateCircleRun 3 (0 : ℤ) 1 (fun _ => 0)).buf 2 :=
  ⟨by norm_num,
   (c10_odd_variants_identical ℤ 3 0 1 (fun _ => 0) (by norm_num)).1 2⟩

/-- C4 (code behavior at the failing input): the only validity check the
source performs is the null test on the buffer pointer.  A null buffer
is rejected for every `n`, but `n = 0` with a non-null buffer is *not*
rejected: the call returns normally (after computing the angle `2π/0`),
and the even branch's `unsigned` loop bound `halfN - 1` wraps to
`2^32 - 1`. -/
theorem c4_n_zero_not_rejected :
    (∀ (n : Nat) (cw : Bool),
      CreateCircleF n none cw = Except.error () ∧
      CreateCircle2F n none cw = Except.error ()) ∧
    (∃ st : CCState ℝ, CreateCircleF 0 (some fun _ => 0) true = Except.ok st) ∧
    (∃ st : CCState ℝ, CreateCircle2F 0 (some fun _ => 0) true = Except.ok st) ∧
    uintSub1 (0 / 2) = 4294967295 := by
  refine ⟨fun n cw => ⟨rfl, rfl⟩, ⟨_, rfl⟩, ⟨_, rfl⟩, by norm_num [uintSub1]⟩

/-! ## The rotation recurrence over the reals -/

theorem rotStep_norm {α : Type} [CommRing α] (c s : α) (p : α × α)
    (h : c ^ 2 + s ^ 2 = 1) (hp : p.1 ^ 2 + p.2 ^ 2 = 1) :
    (rotStep c s p).1 ^ 2 + (rotStep c s p).2 ^ 2 = 1 := by
  obtain ⟨x, y⟩ := p
  simp only [rotStep] at *
  have key : (c * x + s * y) ^ 2 + (s * -x + c * y) ^ 2
      = (c ^ 2 + s ^ 2) * (x ^ 2 + y ^ 2) := by ring
  rw [key, h, hp, one_mul]

theorem rotIter_norm {α : Type} [CommRing α] (c s : α) (m : Nat) (p : α × α)
    (h : c ^ 2 + s ^ 2 = 1) (hp : p.1 ^ 2 + p.2 ^ 2 = 1) :
    (rotIter c s m p).1 ^ 2 + (rotIter c s m p).2 ^ 2 = 1 := by
  induction m with
  | zero => exact hp
  | succ m ih =>
    have e : rotIter c s (m + 1) p = rotStep c s (rotIter c s m p) :=
      Function.iterate_succ_apply' (rotStep c s) m p
    rw [e]
    exact rotStep_norm c s _ h ih

theorem rotIter_right (A : ℝ) (m : Nat) :
    rotIter (Real.cos A) (Real.sin A) m (1, 0)
      = (Real.cos (m * A), -Real.sin (m * A)) := by
  induction m with
  | zero => simp [rotIter]
  | succ m ih =>
    have e : rotIter (Real.cos A) (Real.sin A) (m + 1) ((1 : ℝ), (0 : ℝ))
        = rotStep (Real.cos A) (Real.sin A)
            (rotIter (Real.cos A) (Real.sin A) m (1, 0)) :=
      Function.iterate_succ_apply' _ m _
    rw [e, ih]
    simp only [rotStep]
    have hc : ((m + 1 : ℕ) : ℝ) * A = ↑m * A + A := by push_cast; ring
    rw [hc, Real.cos_add, Real.sin_add]
    simp only [Prod.mk.injEq]
    constructor <;> ring

theorem rotIter_top (A : ℝ) (m : Nat) :
    rotIter (Real.cos A) (Real.sin A) m (0, 1)
      = (Real.sin (m * A), Real.cos (m * A)) := by
  induction m with
  | zero => simp [rotIter]
  | succ m ih =>
    have e : rotIter (Real.cos A) (Real.sin A) (m + 1) ((0 : ℝ), (1 : ℝ))
        = rotStep (Real.cos A) (Real.sin A)
            (rotIter (Real.cos A) (Real.sin A) m (0, 1)) :=
      Function.iterate_succ_apply' _ m _
    rw [e, ih]
    simp only [rotStep]
    have hc : ((m + 1 : ℕ) : ℝ) * A = ↑m * A + A := by push_cast; ring
    rw [hc, Real.cos_add, Real.sin_add]
    simp only [Prod.mk.injEq]
    constructor <;> ring

/-- The per-step angle for clockwise generation is `2π/n`. -/
theorem angleOf_true (n : Nat) : angleOf n true = 2 * Real.pi / (n : ℝ) := by
  simp [angleOf]

theorem angleOf_false (n : Nat) : angleOf n false = -angleOf n true := by
  simp [angleOf, neg_div]

/-- For even `n ≥ 2`, `halfN` rotation steps make a half turn:
`cos(halfN · angle) = -1` and `sin(halfN · angle) = 0` (either winding). -/
theorem halfTurn (n : Nat) (cw : Bool) (h : n % 2 = 0) (h2 : 2 ≤ n) :
    Real.cos (((n / 2 : Nat) : ℝ) * angleOf n cw) = -1 ∧
    Real.sin (((n / 2 : Nat) : ℝ) * angleOf n cw) = 0 := by
  have hz : ((n / 2 : Nat) : ℝ) ≠ 0 := by
    simp only [ne_eq, Nat.cast_eq_zero]
    omega
  have hn : (n : ℝ) = 2 * ((n / 2 : Nat) : ℝ) := by
    conv_lhs => rw [show n = 2 * (n / 2) from by omega]
    push_cast
    ring
  have harg : ((n / 2 : Nat) : ℝ) * angleOf n cw = (if cw then Real.pi else -Real.pi) := by
    rw [angleOf, hn]
    cases cw <;> simp <;> field_simp <;> ring
  rw [harg]
  cases cw <;> simp [Real.cos_pi, Real.sin_pi]

/-- Mirroring a rotated start point across the vertical axis lands on the
rotation by the complementary step count, provided `halfN` steps are a
half turn. -/
theorem rFlip (A : ℝ) (H m : Nat) (hm : m ≤ H)
    (hc : Real.cos ((H : ℝ) * A) = -1) (hs : Real.sin ((H : ℝ) * A) = 0) :
    rotIter (Real.cos A) (Real.sin A) (H - m) (1, 0)
      = (-(rotIter (Real.cos A) (Real.sin A) m (1, 0)).1,
         (rotIter (Real.cos A) (Real.sin A) m (1, 0)).2) := by
  rw [rotIter_right, rotIter_right]
  have hcast : ((H - m : ℕ) : ℝ) * A = (H : ℝ) * A - (m : ℝ) * A := by
    rw [Nat.cast_sub hm]
    ring
  rw [hcast, Real.cos_sub, Real.sin_sub, hc, hs]
  simp only [Prod.mk.injEq]
  constructor <;> ring

/-! ## Claim theorems: odd-branch layout (C5) and the n = 4 example (C7) -/

/-- C5: for odd `n` with `clockwise = true`, `CreateCircle` stores the
top point `(0,1)` at vertex 0, and for each loop iteration `i < ⌊n/2⌋`
stores at vertex `2i+1` the point obtained by `i+1` applications of the
rotation recurrence to `(0,1)`, which is
`(sin((i+1)·2π/n), cos((i+1)·2π/n))`, and at vertex `2i+2` its
left-right mirror `(-x, y)`. -/
theorem c5_odd_clockwise_layout (n : Nat) (b : Nat → ℝ) (hodd : n % 2 = 1) :
    ((CreateCircleR n true b).buf 0 = 0 ∧ (CreateCircleR n true b).buf 1 = 1) ∧
    ∀ i < n / 2,
      ((CreateCircleR n true b).buf (2 * (2 * i + 1)),
        (CreateCircleR n true b).buf (2 * (2 * i + 1) + 1))
        = rotIter (Real.cos (angleOf n true)) (Real.sin (angleOf n true)) (i + 1) (0, 1) ∧
      (CreateCircleR n true b).buf (2 * (2 * i + 1))
        = Real.sin (((i : ℝ) + 1) * (2 * Real.pi / (n : ℝ))) ∧
      (CreateCircleR n true b).buf (2 * (2 * i + 1) + 1)
        = Real.cos (((i : ℝ) + 1) * (2 * Real.pi / (n : ℝ))) ∧
      (CreateCircleR n true b).buf (2 * (2 * i + 2))
        = -Real.sin (((i : ℝ) + 1) * (2 * Real.pi / (n : ℝ))) ∧
      (CreateCircleR n true b).buf (2 * (2 * i + 2) + 1)
        = Real.cos (((i : ℝ) + 1) * (2 * Real.pi / (n : ℝ))) := by
  simp only [CreateCircleR]
  constructor
  · exact CCodd_buf0 n _ _ b hodd
  · intro i hi
    rw [show 2 * Real.pi / (n : ℝ) = angleOf n true from (angleOf_true n).symm]
    have H := CCodd_pay n (Real.cos (angleOf n true)) (Real.sin (angleOf n true)) b hodd i hi
    have hq := rotIter_top (angleOf n true) (i + 1)
    have hcast : ((i + 1 : ℕ) : ℝ) = (i : ℝ) + 1 := by push_cast; ring
    rw [hcast] at hq
    have e1 : 2 * (2 * i + 1) = 2 + 4 * i := by omega
    have e2 : 2 * (2 * i + 2) = 2 + 4 * i + 2 := by omega
    refine ⟨?_, ?_, ?_, ?_, ?_⟩
    · rw [e1, show 2 + 4 * i + 1 = (2 + 4 * i) + 1 from rfl, H.1, H.2.1]
    · rw [e1, H.1, hq]
    · rw [e1, show 2 + 4 * i + 1 = (2 + 4 * i) + 1 from rfl, H.2.1, hq]
    · rw [e2, H.2.2.1, hq]
    · rw [e2, show 2 + 4 * i + 2 + 1 = 2 + 4 * i + 3 from rfl, H.2.2.2, hq]

/-- Witness for C5 at `n = 3`, vertex 1 (`i = 0`). -/
theorem c5_witness :
    (3 % 2 = 1) ∧
    (CreateCircleR 3 true (fun _ => 0)).buf (2 * (2 * 0 + 1))
      = Real.sin ((((0 : ℕ) : ℝ) + 1) * (2 * Real.pi / ((3 : ℕ) : ℝ))) :=
  ⟨by norm_num,
   ((c5_odd_clockwise_layout 3 (fun _ => 0) (by norm_num)).2 0 (by norm_num)).2.1⟩

/-- C7, counterexample to the claim as stated: for `n = 4` the even-branch
loop of `CreateCircle` runs `⌊4/2⌋ - 1 = 1` time, not 0 times. -/
theorem c7_counterexample : uintSub1 (4 / 2) = 1 ∧ ¬ uintSub1 (4 / 2) = 0 := by
  norm_num [uintSub1]

/-- C7 (amended): for `n = 4`, clockwise, the first pair is `(1,0)`, the
loop runs exactly `⌊4/2⌋ - 1 = 1` time, emitting the advanced point
`(0,-1)` and its top-bottom mirror `(0,1)` (the one interleaved mirror
pair), the fixed left-most point `(-1,0)` is emitted last, and the
output totals 4 pairs (8 scalars). -/
theorem c7_amended_n4 (b : Nat → ℝ) :
    uintSub1 (4 / 2) = 1 ∧
    (CreateCircleR 4 true b).buf 0 = 1 ∧ (CreateCircleR 4 true b).buf 1 = 0 ∧
    (CreateCircleR 4 true b).buf 2 = 0 ∧ (CreateCircleR 4 true b).buf 3 = -1 ∧
    (CreateCircleR 4 true b).buf 4 = 0 ∧ (CreateCircleR 4 true b).buf 5 = 1 ∧
    (CreateCircleR 4 true b).buf 6 = -1 ∧ (CreateCircleR 4 true b).buf 7 = 0 ∧
    (CreateCircleR 4 true b).writes.length = 2 * 4 := by
  have hang : angleOf 4 true = Real.pi / 2 := by
    rw [angleOf_true]
    norm_num
    ring
  have hc : Real.cos (angleOf 4 true) = 0 := by rw [hang, Real.cos_pi_div_two]
  have hs : Real.sin (angleOf 4 true) = 1 := by rw [hang, Real.sin_pi_div_two]
  have h0 := CCeven_buf0 4 (Real.cos (angleOf 4 true)) (Real.sin (angleOf 4 true)) b
    (by norm_num) (by norm_num) (by norm_num)
  have hp := CCeven_pay 4 (Real.cos (angleOf 4 true)) (Real.sin (angleOf 4 true)) b
    (by norm_num) (by norm_num) (by norm_num) 0 (by norm_num)
  have hl := CCeven_last 4 (Real.cos (angleOf 4 true)) (Real.sin (angleOf 4 true)) b
    (by norm_num) (by norm_num) (by norm_num)
  have hw := CCeven_writes 4 (Real.cos (angleOf 4 true)) (Real.sin (angleOf 4 true)) b
    (by norm_num) (by norm_num) (by norm_num)
  have hr : rotIter (Real.cos (angleOf 4 true)) (Real.sin (angleOf 4 true)) (0 + 1)
      ((1 : ℝ), (0 : ℝ)) = (0, -1) := by
    rw [rotIter_one]
    simp [rotStep, hc, hs]
  rw [hr] at hp
  norm_num at hp hl h0
  refine ⟨by norm_num [uintSub1], ?_, ?_, ?_, ?_, ?_, ?_, ?_, ?_, ?_⟩
  · exact h0.1
  · exact h0.2
  · exact hp.1
  · exact hp.2.1
  · exact hp.2.2.1
  · exact hp.2.2.2
  · exact hl.1
  · exact hl.2
  · rw [CreateCircleR, hw]
    simp [wIdx]

/-! ## Every stored vertex has unit norm (C2) -/

theorem normCC (n : Nat) (cw : Bool) (b : Nat → ℝ) (hlt : n < 4294967296) :
    ∀ k < n, ((CreateCircleR n cw b).buf (2 * k)) ^ 2
      + ((CreateCircleR n cw b).buf (2 * k + 1)) ^ 2 = 1 := by
  intro k hk
  simp only [CreateCircleR]
  have hcs : Real.cos (angleOf n cw) ^ 2 + Real.sin (angleOf n cw) ^ 2 = 1 :=
    Real.cos_sq_add_sin_sq _
  have hq : ∀ m, (rotIter (Real.cos (angleOf n cw)) (Real.sin (angleOf n cw)) m
      ((0 : ℝ), (1 : ℝ))).1 ^ 2
      + (rotIter (Real.cos (angleOf n cw)) (Real.sin (angleOf n cw)) m ((0 : ℝ), (1 : ℝ))).2 ^ 2
      = 1 := fun m => rotIter_norm _ _ m _ hcs (by norm_num)
  have hr : ∀ m, (rotIter (Real.cos (angleOf n cw)) (Real.sin (angleOf n cw)) m
      ((1 : ℝ), (0 : ℝ))).1 ^ 2
      + (rotIter (Real.cos (angleOf n cw)) (Real.sin (angleOf n cw)) m ((1 : ℝ), (0 : ℝ))).2 ^ 2
      = 1 := fun m => rotIter_norm _ _ m _ hcs (by norm_num)
  rcases Nat.even_or_odd n with he | ho
  · have h : n % 2 = 0 := Nat.even_iff.mp he
    have h2 : 2 ≤ n := by omega
    rcases Nat.eq_zero_or_pos k with rfl | hk1
    · have h0 := CCeven_buf0 n (Real.cos (angleOf n cw)) (Real.sin (angleOf n cw)) b h h2 hlt
      rw [show 2 * 0 = 0 from rfl, show 2 * 0 + 1 = 1 from rfl, h0.1, h0.2]
      norm_num
    · by_cases hklast : k = n - 1
      · subst hklast
        have hl := CCeven_last n (Real.cos (angleOf n cw)) (Real.sin (angleOf n cw)) b h h2 hlt
        rw [show 2 * (n - 1) = 2 * n - 2 from by omega,
          show 2 * n - 2 + 1 = 2 * n - 1 from by omega, hl.1, hl.2]
        norm_num
      · rcases Nat.even_or_odd k with hke | hko
        · have hk2 : k % 2 = 0 := Nat.even_iff.mp hke
          obtain ⟨i, rfl⟩ : ∃ i, k = 2 * i + 2 := ⟨(k - 2) / 2, by omega⟩
          have hilt : i < n / 2 - 1 := by omega
          have H := CCeven_pay n (Real.cos (angleOf n cw)) (Real.sin (angleOf n cw)) b
            h h2 hlt i hilt
          rw [show 2 * (2 * i + 2) = 2 + 4 * i + 2 from by omega,
            show 2 + 4 * i + 2 + 1 = 2 + 4 * i + 3 from rfl, H.2.2.1, H.2.2.2, neg_sq]
          exact hr (i + 1)
        · have hk2 : k % 2 = 1 := Nat.odd_iff.mp hko
          obtain ⟨i, rfl⟩ : ∃ i, k = 2 * i + 1 := ⟨(k - 1) / 2, by omega⟩
          have hilt : i < n / 2 - 1 := by omega
          have H := CCeven_pay n (Real.cos (angleOf n cw)) (Real.sin (angleOf n cw)) b
            h h2 hlt i hilt
          rw [show 2 * (2 * i + 1) = 2 + 4 * i from by omega,
            show 2 + 4 * i + 1 = 2 + 4 * i + 1 from rfl, H.1, H.2.1]
          exact hr (i + 1)
  · have h : n % 2 = 1 := Nat.odd_iff.mp ho
    rcases Nat.eq_zero_or_pos k with rfl | hk1
    · have h0 := CCodd_buf0 n (Real.cos (angleOf n cw)) (Real.sin (angleOf n cw)) b h
      rw [show 2 * 0 = 0 from rfl, show 2 * 0 + 1 = 1 from rfl, h0.1, h0.2]
      norm_num
    · rcases Nat.even_or_odd k with hke | hko
      · have hk2 : k % 2 = 0 := Nat.even_iff.mp hke
        obtain ⟨i, rfl⟩ : ∃ i, k = 2 * i + 2 := ⟨(k - 2) / 2, by omega⟩
        have hilt : i < n / 2 := by omega
        have H := CCodd_pay n (Real.cos (angleOf n cw)) (Real.sin (angleOf n cw)) b h i hilt
        rw [show 2 * (2 * i + 2) = 2 + 4 * i + 2 from by omega,
          show 2 + 4 * i + 2 + 1 = 2 + 4 * i + 3 from rfl, H.2.2.1, H.2.2.2, neg_sq]
        exact hq (i + 1)
      · have hk2 : k % 2 = 1 := Nat.odd_iff.mp hko
        obtain ⟨i, rfl⟩ : ∃ i, k = 2 * i + 1 := ⟨(k - 1) / 2, by omega⟩
        have hilt : i < n / 2 := by omega
        have H := CCodd_pay n (Real.cos (angleOf n cw)) (Real.sin (angleOf n cw)) b h i hilt
        rw [show 2 * (2 * i + 1) = 2 + 4 * i from by omega, H.1, H.2.1]
        exact hq (i + 1)

theorem normCC2 (n : Nat) (cw : Bool) (b : Nat → ℝ) (hlt : n < 4294967296) :
    ∀ k < n, ((CreateCircle2R n cw b).buf (2 * k)) ^ 2
      + ((CreateCircle2R n cw b).buf (2 * k + 1)) ^ 2 = 1 := by
  intro k hk
  simp only [CreateCircle2R]
  have hcs : Real.cos (angleOf n cw) ^ 2 + Real.sin (angleOf n cw) ^ 2 = 1 :=
    Real.cos_sq_add_sin_sq _
  have hr : ∀ m, (rotIter (Real.cos (angleOf n cw)) (Real.sin (angleOf n cw)) m
      ((1 : ℝ), (0 : ℝ))).1 ^ 2
      + (rotIter (Real.cos (angleOf n cw)) (Real.sin (angleOf n cw)) m ((1 : ℝ), (0 : ℝ))).2 ^ 2
      = 1 := fun m => rotIter_norm _ _ m _ hcs (by norm_num)
  rcases Nat.even_or_odd n with he | ho
  · have h : n % 2 = 0 := Nat.even_iff.mp he
    have h2 : 2 ≤ n := by omega
    have key : 2 * ((n / 2) / 2) + 2 * ((n / 2 - 1) / 2) = n - 2 := by omega
    rcases Nat.eq_zero_or_pos k with rfl | hk1
    · have h0 := CC2even_buf0 n (Real.cos (angleOf n cw)) (Real.sin (angleOf n cw)) b h h2
      rw [show 2 * 0 = 0 from rfl, show 2 * 0 + 1 = 1 from rfl, h0.1, h0.2]
      norm_num
    · by_cases hklast : k = n - 1
      · subst hklast
        have hl := CC2even_last n (Real.cos (angleOf n cw)) (Real.sin (angleOf n cw)) b h h2
        rw [show 2 * (n - 1) = 2 * n - 2 from by omega,
          show 2 * n - 2 + 1 = 2 * n - 1 from by omega, hl.1, hl.2]
        norm_num
      · by_cases hp1 : k ≤ 2 * ((n / 2) / 2)
        · rcases Nat.even_or_odd k with hke | hko
          · have hk2 : k % 2 = 0 := Nat.even_iff.mp hke
            obtain ⟨i, rfl⟩ : ∃ i, k = 2 * i + 2 := ⟨(k - 2) / 2, by omega⟩
            have hilt : i < (n / 2) / 2 := by omega
            have H := CC2even_pay1 n (Real.cos (angleOf n cw)) (Real.sin (angleOf n cw)) b
              h h2 i hilt
            rw [show 2 * (2 * i + 2) = 2 + 4 * i + 2 from by omega,
              show 2 + 4 * i + 2 + 1 = 2 + 4 * i + 3 from rfl, H.2.2.1, H.2.2.2, neg_sq]
            exact hr (i + 1)
          · have hk2 : k % 2 = 1 := Nat.odd_iff.mp hko
            obtain ⟨i, rfl⟩ : ∃ i, k = 2 * i + 1 := ⟨(k - 1) / 2, by omega⟩
            have hilt : i < (n / 2) / 2 := by omega
            have H := CC2even_pay1 n (Real.cos (angleOf n cw)) (Real.sin (angleOf n cw)) b
              h h2 i hilt
            rw [show 2 * (2 * i + 1) = 2 + 4 * i from by omega, H.1, H.2.1]
            exact hr (i + 1)
        · -- second-pass region
          have hk2 : 2 * ((n / 2) / 2) + 1 ≤ k := by omega
          rcases Nat.even_or_odd (k - (2 * ((n / 2) / 2) + 1)) with hte | hto
          · have ht2 : (k - (2 * ((n / 2) / 2) + 1)) % 2 = 0 := Nat.even_iff.mp hte
            obtain ⟨j, hj⟩ : ∃ j, k = 2 * ((n / 2) / 2) + 1 + 2 * j :=
              ⟨(k - (2 * ((n / 2) / 2) + 1)) / 2, by omega⟩
            subst hj
            have hjlt : j < (n / 2 - 1) / 2 := by omega
            have H := CC2even_pay2 n (Real.cos (angleOf n cw)) (Real.sin (angleOf n cw)) b
              h h2 j hjlt
            rw [show 2 * (2 * ((n / 2) / 2) + 1 + 2 * j) = 2 + 4 * ((n / 2) / 2) + 4 * j
                from by omega,
              show 2 + 4 * ((n / 2) / 2) + 4 * j + 1 = 2 + 4 * ((n / 2) / 2) + 4 * j + 1
                from rfl, H.1, H.2.1, neg_sq]
            exact hr ((n / 2 - 1) / 2 - j)
          · have ht2 : (k - (2 * ((n / 2) / 2) + 1)) % 2 = 1 := Nat.odd_iff.mp hto
            obtain ⟨j, hj⟩ : ∃ j, k = 2 * ((n / 2) / 2) + 2 + 2 * j :=
              ⟨(k - (2 * ((n / 2) / 2) + 2)) / 2, by omega⟩
            subst hj
            have hjlt : j < (n / 2 - 1) / 2 := by omega
            have H := CC2even_pay2 n (Real.cos (angleOf n cw)) (Real.sin (angleOf n cw)) b
              h h2 j hjlt
            rw [show 2 * (2 * ((n / 2) / 2) + 2 + 2 * j) = 2 + 4 * ((n / 2) / 2) + 4 * j + 2
                from by omega,
              show 2 + 4 * ((n / 2) / 2) + 4 * j + 2 + 1 = 2 + 4 * ((n / 2) / 2) + 4 * j + 3
                from rfl, H.2.2.1, H.2.2.2, neg_sq, neg_sq]
            exact hr ((n / 2 - 1) / 2 - j)
  · have h : n % 2 = 1 := Nat.odd_iff.mp ho
    have he2 := CC2odd_eq_CC n (Real.cos (angleOf n cw)) (Real.sin (angleOf n cw)) b h
    rw [he2]
    exact normCC n cw b hlt k hk

/-- C2: for every `n ≥ 1` (unsigned), every winding flag and every
vertex `k < n`, the emitted pair of either variant lies exactly on the
unit circle in real arithmetic: `x² + y² = 1`.  (The rotation recurrence
with `c = cos angle`, `s = sin angle` preserves the unit norm, and every
mirrored or fixed point also has unit norm.) -/
theorem c2_unit_circle (n : Nat) (cw : Bool) (b : Nat → ℝ) (h1 : 1 ≤ n)
    (hlt : n < 4294967296) :
    ∀ k < n,
      ((CreateCircleR n cw b).buf (2 * k)) ^ 2
        + ((CreateCircleR n cw b).buf (2 * k + 1)) ^ 2 = 1 ∧
      ((CreateCircle2R n cw b).buf (2 * k)) ^ 2
        + ((CreateCircle2R n cw b).buf (2 * k + 1)) ^ 2 = 1 :=
  fun k hk => ⟨normCC n cw b hlt k hk, normCC2 n cw b hlt k hk⟩

/-- Witness for C2 at `n = 4`, clockwise, vertex 0. -/
theorem c2_witness :
    ((1 : Nat) ≤ 4 ∧ (4 : Nat) < 4294967296) ∧
    ((CreateCircleR 4 true (fun _ => 0)).buf (2 * 0)) ^ 2
      + ((CreateCircleR 4 true (fun _ => 0)).buf (2 * 0 + 1)) ^ 2 = 1 :=
  ⟨⟨by norm_num, by norm_num⟩,
   (c2_unit_circle 4 true (fun _ => 0) (by norm_num) (by norm_num) 0 (by norm_num)).1⟩

/-! ## The vertex multiset, grouped into mirror pairs -/

theorem range_map_pairs_odd {β : Type} (f : Nat → β) (t : Nat) :
    (Multiset.range (1 + 2 * t)).map f
      = {f 0} + ∑ i in Finset.range t, ({f (2 * i + 1)} + {f (2 * i + 2)}) := by
  induction t with
  | zero => simp
  | succ t ih =>
    have e : 1 + 2 * (t + 1) = (1 + 2 * t) + 1 + 1 := by ring
    rw [e, Multiset.range_succ, Multiset.range_succ, Multiset.map_cons, Multiset.map_cons, ih,
      Finset.sum_range_succ, show 1 + 2 * t + 1 = 2 * t + 2 from by ring,
      show 1 + 2 * t = 2 * t + 1 from by ring, ← Multiset.singleton_add,
      ← Multiset.singleton_add]
    abel

theorem range_map_pairs_even {β : Type} (f : Nat → β) (t : Nat) :
    (Multiset.range (2 + 2 * t)).map f
      = {f 0} + (∑ i in Finset.range t, ({f (2 * i + 1)} + {f (2 * i + 2)}))
        + {f (2 * t + 1)} := by
  have e : 2 + 2 * t = (1 + 2 * t) + 1 := by ring
  rw [e, Multiset.range_succ, Multiset.map_cons, range_map_pairs_odd,
    show 1 + 2 * t = 2 * t + 1 from by ring, ← Multiset.singleton_add]
  abel

theorem ptsM_CC_odd {α : Type} [CommRing α] (n : Nat) (c s : α) (b : Nat → α)
    (h : n % 2 = 1) :
    ptsM (CreateCircleRun n c s b) n
      = {((0 : α), (1 : α))} + ∑ i in Finset.range (n / 2),
          ({rotIter c s (i + 1) (0, 1)}
            + {(-(rotIter c s (i + 1) (0, 1)).1, (rotIter c s (i + 1) (0, 1)).2)}) := by
  have hr : Multiset.range n = Multiset.range (1 + 2 * (n / 2)) := by
    rw [show 1 + 2 * (n / 2) = n from by omega]
  simp only [ptsM]
  rw [hr, range_map_pairs_odd]
  congr 1
  · have h0 := CCodd_buf0 n c s b h
    rw [show 2 * 0 = 0 from rfl, show 2 * 0 + 1 = 1 from rfl, h0.1, h0.2]
  · refine Finset.sum_congr rfl fun i hi => ?_
    have hilt : i < n / 2 := Finset.mem_range.mp hi
    have H := CCodd_pay n c s b h i hilt
    congr 1
    · rw [show 2 * (2 * i + 1) = 2 + 4 * i from by omega,
        show 2 + 4 * i + 1 = 2 + 4 * i + 1 from rfl, H.1, H.2.1]
    · rw [show 2 * (2 * i + 2) = 2 + 4 * i + 2 from by omega,
        show 2 + 4 * i + 2 + 1 = 2 + 4 * i + 3 from rfl, H.2.2.1, H.2.2.2]

theorem ptsM_CC_even {α : Type} [CommRing α] (n : Nat) (c s : α) (b : Nat → α)
    (h : n % 2 = 0) (h2 : 2 ≤ n) (hlt : n < 4294967296) :
    ptsM (CreateCircleRun n c s b) n
      = {((1 : α), (0 : α))} + (∑ i in Finset.range (n / 2 - 1),
          ({rotIter c s (i + 1) (1, 0)}
            + {((rotIter c s (i + 1) (1, 0)).1, -(rotIter c s (i + 1) (1, 0)).2)}))
        + {((-1 : α), (0 : α))} := by
  have hr : Multiset.range n = Multiset.range (2 + 2 * (n / 2 - 1)) := by
    rw [show 2 + 2 * (n / 2 - 1) = n from by omega]
  simp only [ptsM]
  rw [hr, range_map_pairs_even]
  congr 1
  · congr 1
    · have h0 := CCeven_buf0 n c s b h h2 hlt
      rw [show 2 * 0 = 0 from rfl, show 2 * 0 + 1 = 1 from rfl, h0.1, h0.2]
    · refine Finset.sum_congr rfl fun i hi => ?_
      have hilt : i < n / 2 - 1 := Finset.mem_range.mp hi
      have H := CCeven_pay n c s b h h2 hlt i hilt
      congr 1
      · rw [show 2 * (2 * i + 1) = 2 + 4 * i from by omega,
          show 2 + 4 * i + 1 = 2 + 4 * i + 1 from rfl, H.1, H.2.1]
      · rw [show 2 * (2 * i + 2) = 2 + 4 * i + 2 from by omega,
          show 2 + 4 * i + 2 + 1 = 2 + 4 * i + 3 from rfl, H.2.2.1, H.2.2.2]
  · have hl := CCeven_last n c s b h h2 hlt
    rw [show 2 * (2 * (n / 2 - 1) + 1) = 2 * n - 2 from by omega,
      show 2 * n - 2 + 1 = 2 * n - 1 from by omega, hl.1, hl.2]

theorem ptsM_CC2_even {α : Type} [CommRing α] (n : Nat) (c s : α) (b : Nat → α)
    (h : n % 2 = 0) (h2 : 2 ≤ n) :
    ptsM (CreateCircle2Run n c s b) n
      = {((1 : α), (0 : α))}
        + ((∑ i in Finset.range ((n / 2) / 2),
            ({rotIter c s (i + 1) (1, 0)}
              + {((rotIter c s (i + 1) (1, 0)).1, -(rotIter c s (i + 1) (1, 0)).2)}))
          + ∑ k in Finset.range ((n / 2 - 1) / 2),
            ({(-(rotIter c s ((n / 2 - 1) / 2 - k) (1, 0)).1,
                (rotIter c s ((n / 2 - 1) / 2 - k) (1, 0)).2)}
              + {(-(rotIter c s ((n / 2 - 1) / 2 - k) (1, 0)).1,
                  -(rotIter c s ((n / 2 - 1) / 2 - k) (1, 0)).2)}))
        + {((-1 : α), (0 : α))} := by
  have hr : Multiset.range n = Multiset.range (2 + 2 * ((n / 2) / 2 + (n / 2 - 1) / 2)) := by
    rw [show 2 + 2 * ((n / 2) / 2 + (n / 2 - 1) / 2) = n from by omega]
  simp only [ptsM]
  rw [hr, range_map_pairs_even, Finset.sum_range_add]
  congr 1
  · congr 1
    · have h0 := CC2even_buf0 n c s b h h2
      rw [show 2 * 0 = 0 from rfl, show 2 * 0 + 1 = 1 from rfl, h0.1, h0.2]
    · congr 1
      · refine Finset.sum_congr rfl fun i hi => ?_
        have hilt : i < (n / 2) / 2 := Finset.mem_range.mp hi
        have H := CC2even_pay1 n c s b h h2 i hilt
        congr 1
        · rw [show 2 * (2 * i + 1) = 2 + 4 * i from by omega,
            show 2 + 4 * i + 1 = 2 + 4 * i + 1 from rfl, H.1, H.2.1]
        · rw [show 2 * (2 * i + 2) = 2 + 4 * i + 2 from by omega,
            show 2 + 4 * i + 2 + 1 = 2 + 4 * i + 3 from rfl, H.2.2.1, H.2.2.2]
      · refine Finset.sum_congr rfl fun k hk => ?_
        have hklt : k < (n / 2 - 1) / 2 := Finset.mem_range.mp hk
        have H := CC2even_pay2 n c s b h h2 k hklt
        congr 1
        · rw [show 2 * (2 * ((n / 2) / 2 + k) + 1) = 2 + 4 * ((n / 2) / 2) + 4 * k
              from by omega,
            show 2 + 4 * ((n / 2) / 2) + 4 * k + 1 = 2 + 4 * ((n / 2) / 2) + 4 * k + 1
              from rfl, H.1, H.2.1]
        · rw [show 2 * (2 * ((n / 2) / 2 + k) + 2) = 2 + 4 * ((n / 2) / 2) + 4 * k + 2
              from by omega,
            show 2 + 4 * ((n / 2) / 2) + 4 * k + 2 + 1 = 2 + 4 * ((n / 2) / 2) + 4 * k + 3
              from rfl, H.2.2.1, H.2.2.2]
  · have hl := CC2even_last n c s b h h2
    rw [show 2 * (2 * ((n / 2) / 2 + (n / 2 - 1) / 2) + 1) = 2 * n - 2 from by omega,
      show 2 * n - 2 + 1 = 2 * n - 1 from by omega, hl.1, hl.2]

/-! ## Winding reversal flips only the sine increment (C6) -/

theorem rotIter_neg_s_right {α : Type} [CommRing α] (c s : α) (m : Nat) :
    rotIter c (-s) m (1, 0)
      = ((rotIter c s m (1, 0)).1, -(rotIter c s m (1, 0)).2) := by
  induction m with
  | zero => simp [rotIter]
  | succ m ih =>
    rw [show rotIter c (-s) (m + 1) ((1 : α), (0 : α))
          = rotStep c (-s) (rotIter c (-s) m (1, 0)) from Function.iterate_succ_apply' _ _ _,
      show rotIter c s (m + 1) ((1 : α), (0 : α))
          = rotStep c s (rotIter c s m (1, 0)) from Function.iterate_succ_apply' _ _ _, ih]
    simp only [rotStep, Prod.mk.injEq]
    constructor <;> ring

theorem rotIter_neg_s_top {α : Type} [CommRing α] (c s : α) (m : Nat) :
    rotIter c (-s) m (0, 1)
      = (-(rotIter c s m (0, 1)).1, (rotIter c s m (0, 1)).2) := by
  induction m with
  | zero => simp [rotIter]
  | succ m ih =>
    rw [show rotIter c (-s) (m + 1) ((0 : α), (1 : α))
          = rotStep c (-s) (rotIter c (-s) m (0, 1)) from Function.iterate_succ_apply' _ _ _,
      show rotIter c s (m + 1) ((0 : α), (1 : α))
          = rotStep c s (rotIter c s m (0, 1)) from Function.iterate_succ_apply' _ _ _, ih]
    simp only [rotStep, Prod.mk.injEq]
    constructor <;> ring

theorem ptsM_negs_CC {α : Type} [CommRing α] (n : Nat) (c s : α) (b b' : Nat → α)
    (h1 : 1 ≤ n) (hlt : n < 4294967296) :
    ptsM (CreateCircleRun n c (-s) b) n = ptsM (CreateCircleRun n c s b') n := by
  rcases Nat.even_or_odd n with he | ho
  · have h : n % 2 = 0 := Nat.even_iff.mp he
    have h2 : 2 ≤ n := by omega
    rw [ptsM_CC_even n c (-s) b h h2 hlt, ptsM_CC_even n c s b' h h2 hlt]
    congr 1
    congr 1
    refine Finset.sum_congr rfl fun i _ => ?_
    rw [rotIter_neg_s_right]
    simp only [neg_neg, Prod.mk.eta]
    exact add_comm _ _
  · have h : n % 2 = 1 := Nat.odd_iff.mp ho
    rw [ptsM_CC_odd n c (-s) b h, ptsM_CC_odd n c s b' h]
    congr 1
    refine Finset.sum_congr rfl fun i _ => ?_
    rw [rotIter_neg_s_top]
    simp only [neg_neg, Prod.mk.eta]
    exact add_comm _ _

theorem ptsM_negs_CC2 {α : Type} [CommRing α] (n : Nat) (c s : α) (b b' : Nat → α)
    (h1 : 1 ≤ n) (hlt : n < 4294967296) :
    ptsM (CreateCircle2Run n c (-s) b) n = ptsM (CreateCircle2Run n c s b') n := by
  rcases Nat.even_or_odd n with he | ho
  · have h : n % 2 = 0 := Nat.even_iff.mp he
    have h2 : 2 ≤ n := by omega
    rw [ptsM_CC2_even n c (-s) b h h2, ptsM_CC2_even n c s b' h h2]
    congr 1
    congr 1
    congr 1
    · refine Finset.sum_congr rfl fun i _ => ?_
      rw [rotIter_neg_s_right]
      simp only [neg_neg, Prod.mk.eta]
      exact add_comm _ _
    · refine Finset.sum_congr rfl fun k _ => ?_
      rw [rotIter_neg_s_right]
      simp only [neg_neg]
      exact add_comm _ _
  · have h : n % 2 = 1 := Nat.odd_iff.mp ho
    rw [CC2odd_eq_CC n c (-s) b h, CC2odd_eq_CC n c s b' h]
    exact ptsM_negs_CC n c s b b' h1 hlt

/-- C6: for every `n ≥ 1` (unsigned) and either variant, generating
clockwise and counter-clockwise produces the same set of points in
exact real arithmetic — indeed the same multiset, since negating the
angle negates only the sine increment and each directly emitted point
is accompanied by its mirror. -/
theorem c6_winding_same_point_set (n : Nat) (b b' : Nat → ℝ) (h1 : 1 ≤ n)
    (hlt : n < 4294967296) :
    (∀ p : ℝ × ℝ,
      p ∈ ptsM (CreateCircleR n false b) n ↔ p ∈ ptsM (CreateCircleR n true b') n) ∧
    (∀ p : ℝ × ℝ,
      p ∈ ptsM (CreateCircle2R n false b) n ↔ p ∈ ptsM (CreateCircle2R n true b') n) := by
  have hc : Real.cos (angleOf n false) = Real.cos (angleOf n true) := by
    rw [angleOf_false]
    exact Real.cos_neg _
  have hs : Real.sin (angleOf n false) = -Real.sin (angleOf n true) := by
    rw [angleOf_false]
    exact Real.sin_neg _
  have m1 : ptsM (CreateCircleR n false b) n = ptsM (CreateCircleR n true b') n := by
    simp only [CreateCircleR]
    rw [hc, hs]
    exact ptsM_negs_CC n _ _ b b' h1 hlt
  have m2 : ptsM (CreateCircle2R n false b) n = ptsM (CreateCircle2R n true b') n := by
    simp only [CreateCircle2R]
    rw [hc, hs]
    exact ptsM_negs_CC2 n _ _ b b' h1 hlt
  exact ⟨fun p => by rw [m1], fun p => by rw [m2]⟩

/-- Witness for C6 at `n = 5`: membership of the top point `(0, 1)` is
the same for both windings of `CreateCircle`. -/
theorem c6_witness :
    ((0 : ℝ), (1 : ℝ)) ∈ ptsM (CreateCircleR 5 false (fun _ => 0)) 5 ↔
    ((0 : ℝ), (1 : ℝ)) ∈ ptsM (CreateCircleR 5 true (fun _ => 0)) 5 :=
  (c6_winding_same_point_set 5 (fun _ => 0) (fun _ => 0) (by norm_num) (by norm_num)).1 (0, 1)

/-! ## The quarter-symmetry variant emits the same multiset (C3) -/

theorem sum_range_split_of_eq {β : Type} [AddCommMonoid β] (g : Nat → β) (t a m : Nat)
    (h : t = a + m) :
    ∑ i in Finset.range t, g i
      = (∑ i in Finset.range a, g i) + ∑ k in Finset.range m, g (a + k) := by
  subst h
  exact Finset.sum_range_add g a m

/-- C3: for every even `n ≥ 2` (unsigned) and every winding flag, the
multiset of the `n` points emitted by the quarter-symmetry variant
`CreateCircle2` equals the multiset of the `n` points emitted by the
half-symmetry variant `CreateCircle` (in exact real arithmetic; the
emission order differs). -/
theorem c3_multiset_equal (n : Nat) (cw : Bool) (b b' : Nat → ℝ) (h : n % 2 = 0)
    (h2 : 2 ≤ n) (hlt : n < 4294967296) :
    ptsM (CreateCircle2R n cw b) n = ptsM (CreateCircleR n cw b') n := by
  obtain ⟨hcH, hsH⟩ := halfTurn n cw h h2
  simp only [CreateCircleR, CreateCircle2R]
  rw [ptsM_CC2_even n _ _ b h h2, ptsM_CC_even n _ _ b' h h2 hlt,
    sum_range_split_of_eq _ (n / 2 - 1) ((n / 2) / 2) ((n / 2 - 1) / 2) (by omega)]
  congr 1
  congr 1
  congr 1
  refine Finset.sum_congr rfl fun k hk => ?_
  have hklt : k < (n / 2 - 1) / 2 := Finset.mem_range.mp hk
  have e : (n / 2) / 2 + k + 1 = n / 2 - ((n / 2 - 1) / 2 - k) := by omega
  rw [e, rFlip (angleOf n cw) (n / 2) ((n / 2 - 1) / 2 - k) (by omega) hcH hsH]

/-- Witness for C3 at `n = 4`, clockwise. -/
theorem c3_witness :
    ptsM (CreateCircle2R 4 true (fun _ => 0)) 4 = ptsM (CreateCircleR 4 true (fun _ => 0)) 4 :=
  c3_multiset_equal 4 true (fun _ => 0) (fun _ => 0) (by norm_num) (by norm_num) (by norm_num)
